import Mathlib

/-!
KigImgSift backend: file move, undo, scan and configuration.

A shallow embedding of `KigImgSift_Backend/main.go` (the `moveFile`,
`moveImage`, `undoImage`, `scanImageFiles`, `getConfig` and `updateConfig`
functions) over an explicit model of the file system and of the Go library
calls the handlers make (`path/filepath`, `strings`, `os`, `io`, `viper`).
-/

set_option autoImplicit false

namespace KigImgSift

/-! ## Strings and paths (`strings`, `path/filepath`, Unix flavour) -/

/-- A Go string, as its sequence of characters. -/
abbrev Str := List Char

/-- One path element: a name between two separators. -/
abbrev Seg := List Char

/-- An absolute, fully resolved location: the names from the root down. -/
abbrev Key := List Seg

/-- Go `filepath.Ext`: the suffix beginning at the final dot of the final
element of the path; empty when that element has no dot. The scan runs from
the end of the string and stops at the first separator. -/
def Ext : Str → Str
  | [] => []
  | c :: cs =>
    if cs.contains '/' then Ext cs
    else if cs.contains '.' then Ext cs
    else if c = '.' then c :: cs
    else []

/-- Go `strings.TrimSuffix`: `s` without the trailing `suffix`, or `s`
itself when it does not end with `suffix`. -/
def TrimSuffix (s suffix : Str) : Str :=
  if suffix.isSuffixOf s then s.take (s.length - suffix.length) else s

/-- Go `strings.ToLower` on the characters that matter for the extension
test (no character outside ASCII lowers to one of the letters of the four
recognised extensions). -/
def ToLower (s : Str) : Str := s.map Char.toLower

/-- Decimal rendering of a counter, the `%d` verb of `fmt.Sprintf`. -/
def itoa (n : Nat) : Str := Nat.toDigits 10 n

/-- The elements of a path string: the pieces between `/` separators. -/
def splitSlash : Str → List Seg
  | [] => [[]]
  | c :: cs =>
    if c = '/' then [] :: splitSlash cs
    else
      match splitSlash cs with
      | [] => [[c]]
      | n :: ns => (c :: n) :: ns

/-- A cleaned path, the normal form `filepath.Clean` produces: whether it
is rooted, how many `..` elements lead it (none when rooted), and the
ordinary names that follow. `.` is `⟨false, 0, []⟩` and `/` is
`⟨true, 0, []⟩`. -/
structure CleanPath where
  rooted : Bool
  ups : Nat
  comps : List Seg
  deriving DecidableEq, Repr

/-- One step of `filepath.Clean`: consume the next path element. Empty and
`.` elements vanish, `..` removes the preceding ordinary name (or is kept
as a leading `..` of an unrooted path, or dropped at the root), any other
name is appended. -/
def cleanStep (p : CleanPath) (c : Seg) : CleanPath :=
  if c = [] ∨ c = ['.'] then p
  else if c = ['.', '.'] then
    match p.comps with
    | [] => if p.rooted then p else { p with ups := p.ups + 1 }
    | _ :: _ => { p with comps := p.comps.dropLast }
  else { p with comps := p.comps ++ [c] }

/-- Go `filepath.Clean` of a non-empty path string. -/
def Clean (s : Str) : CleanPath :=
  (splitSlash s).foldl cleanStep ⟨s.head? = some '/', 0, []⟩

/-- The cleaned path `.`. -/
def dot : CleanPath := ⟨false, 0, []⟩

/-- Go `filepath.Join(a, b)` of two strings: empty elements are ignored,
the rest are joined with a separator and cleaned; the result is the empty
string (`none`) when both are empty. -/
def Join (a b : Str) : Option CleanPath :=
  if a = [] then (if b = [] then none else some (Clean b))
  else some ((splitSlash b).foldl cleanStep (Clean a))

/-- Go `filepath.Join(d, b)` when `d` is already a cleaned path (the value
of `filepath.Dir`): the elements of `b` are consumed after `d`. -/
def JoinClean (d : CleanPath) (b : Str) : CleanPath :=
  (splitSlash b).foldl cleanStep d

/-- Go `filepath.Dir`: everything but the last element, cleaned. The
directory of the empty string, of `.` and of `..` is `.`; the directory of
`/` is `/`. -/
def Dir : Option CleanPath → CleanPath
  | none => dot
  | some p =>
    match p.comps with
    | _ :: _ => { p with comps := p.comps.dropLast }
    | [] => if p.rooted then p else { p with ups := p.ups - 1 }

/-- The location a cleaned path denotes for a process whose working
directory is `cwd` (no symbolic links): a leading `..` climbs one level, and
stays at the root once there. -/
def resolve (cwd : Key) (p : CleanPath) : Key :=
  if p.rooted then p.comps else (cwd.reverse.drop p.ups).reverse ++ p.comps

/-! ## The file system and the `os` calls -/

/-- What lives at a location: a regular file with its bytes, or a
directory. -/
inductive Node where
  | file (content : List Nat)
  | dir
  deriving DecidableEq, Repr

/-- A file system state: the locations that exist, each with its node. The
first entry for a location is the one that counts. -/
abbrev FS := List (Key × Node)

/-- The node at a location, if any. -/
def fsGet : FS → Key → Option Node
  | [], _ => none
  | e :: rest, k => if e.1 = k then some e.2 else fsGet rest k

/-- The file system without location `k`. -/
def fsDel : FS → Key → FS
  | [], _ => []
  | e :: rest, k => if e.1 = k then fsDel rest k else e :: fsDel rest k

/-- The file system with location `k` holding `n`. -/
def fsPut (fs : FS) (k : Key) (n : Node) : FS :=
  (k, n) :: fsDel fs k

/-- The remainder of `k` below `src`: `some r` exactly when `k = src ++ r`. -/
def strip : Key → Key → Option Key
  | [], k => some k
  | _ :: _, [] => none
  | a :: as, b :: bs => if a = b then strip as bs else none

/-- Where an entry goes when the tree at `src` is renamed to `dst`. -/
def rekey (src dst : Key) (e : Key × Node) : Key × Node :=
  match strip src e.1 with
  | some r => (dst ++ r, e.2)
  | none => e

/-- The file system after the tree at `src` has been renamed to `dst`:
whatever was at or below `dst` is replaced, and every location at or below
`src` reappears at the same place below `dst`. -/
def fsMove : FS → Key → Key → FS
  | [], _, _ => []
  | e :: rest, src, dst =>
    if (strip dst e.1).isSome then fsMove rest src dst
    else rekey src dst e :: fsMove rest src dst

/-- Whether nothing lies strictly below `k`. -/
def isEmptyDir (fs : FS) (k : Key) : Bool :=
  fs.all (fun e => match strip k e.1 with
    | some (_ :: _) => false
    | _ => true)

/-- The locations strictly above `k`, from the root down. -/
def ancestors : Key → List Key
  | [] => []
  | a :: k => [] :: (ancestors k).map (a :: ·)

/-- Well-formed file system: every location that exists lies under
directories only. -/
def WF (fs : FS) : Prop :=
  ∀ e ∈ fs, ∀ q ∈ ancestors e.1, fsGet fs q = some Node.dir

instance (fs : FS) : Decidable (WF fs) := by
  unfold WF; infer_instance

/-- The length of a name in bytes (UTF-8). -/
def nameBytes (seg : Seg) : Nat := (seg.map Char.utf8Size).sum

/-- Whether some name of a location is longer than the 255 bytes a file
name may have (NAME_MAX): nothing can exist there, and the operating system
answers ENAMETOOLONG. -/
def tooLong (k : Key) : Bool := k.any (fun seg => decide (255 < nameBytes seg))

/-- Outcome of `os.Stat` as the handlers observe it: `err == nil`, an error
for which `os.IsNotExist` holds (ENOENT), or another error, for which it
does not hold (ENOTDIR, when an element of the path above the last is a
regular file; ENAMETOOLONG, when a name is too long). -/
inductive StatResult where
  | ok (n : Node)
  | notExist
  | otherErr
  deriving DecidableEq, Repr

/-- The answer of `os.Stat` for a location at which nothing is: ENAMETOOLONG
for a name that is too long, ENOTDIR when a regular file lies on the way,
else ENOENT. -/
def statAbsent (fs : FS) (k : Key) : StatResult :=
  if tooLong k then .otherErr
  else if (ancestors k).any
      (fun q => match fsGet fs q with
        | some (.file _) => true
        | _ => false)
  then .otherErr else .notExist

/-- Go `os.Stat` of a cleaned path, decided by the file system state: what
is at the location, else the error for an absent location. The empty path
does not exist. Errors on existing files (permissions, input/output) are
not part of the model. -/
def Stat (cwd : Key) (fs : FS) : Option CleanPath → StatResult
  | none => .notExist
  | some p =>
    match fsGet fs (resolve cwd p) with
    | some n => .ok n
    | none => statAbsent fs (resolve cwd p)

/-- One visit of `os.MkdirAll` to a location on the way down: an existing
directory is passed, a regular file in the way is an error (`none`), a
missing directory is created with `Mkdir`, which fails for a name that is
too long. `budget` is the environment:
`none` when every `Mkdir` succeeds, `some n` when the call after `n`
successful ones fails. -/
def mkdirStep (fs : FS) (budget : Option Nat) (q : Key) : Option (FS × Option Nat) :=
  match fsGet fs q with
  | some .dir => some (fs, budget)
  | some (.file _) => none
  | none =>
    if tooLong q then none
    else
      match budget with
      | some 0 => none
      | some (b + 1) => some (fsPut fs q .dir, some b)
      | none => some (fsPut fs q .dir, none)

/-- The visits of `os.MkdirAll` from location `pre` down through the names
`rest`. Returns whether the whole chain succeeded, and the resulting file
system (directories created before a failure stay). -/
def mkdirChain (fs : FS) (budget : Option Nat) (pre : Key) : List Seg → Bool × FS
  | [] =>
    match mkdirStep fs budget pre with
    | none => (false, fs)
    | some (fs1, _) => (true, fs1)
  | r :: rs =>
    match mkdirStep fs budget pre with
    | none => (false, fs)
    | some (fs1, b1) => mkdirChain fs1 b1 (pre ++ [r]) rs

/-- Go `os.MkdirAll` of a cleaned path. -/
def MkdirAll (cwd : Key) (budget : Option Nat) (fs : FS) (p : CleanPath) : Bool × FS :=
  mkdirChain fs budget [] (resolve cwd p)

/-- Go `os.Rename` on two locations. It fails when the source is missing
and when the target is an existing directory (Go answers EEXIST before the
system call). Renaming a file to its own location does nothing and
succeeds. Otherwise `fails` is the environment refusing (another device,
permissions), and the rename fails when a name of the target is too long,
when the target's directory is missing, when the target lies below or above
the source, and when a directory would replace a file. `none` is an error
and leaves the file system as it was. -/
def renameAt (fails : Bool) (fs : FS) (s d : Key) : Option FS :=
  match fsGet fs s with
  | none => none
  | some n =>
    match fsGet fs d with
    | some .dir => none
    | some (.file _) =>
      if s = d then some fs
      else if fails then none
      else if (strip s d).isSome ∨ (strip d s).isSome then none
      else
        match n with
        | .file _ => some (fsMove fs s d)
        | .dir => none
    | none =>
      if fails then none
      else if tooLong d then none
      else if d = [] then none
      else if fsGet fs d.dropLast ≠ some Node.dir then none
      else if (strip s d).isSome ∨ (strip d s).isSome then none
      else some (fsMove fs s d)

/-- Go `os.Rename` of two cleaned paths; the empty path is an error. -/
def Rename (cwd : Key) (fails : Bool) (fs : FS) (src dst : Option CleanPath) : Option FS :=
  match src, dst with
  | some sp, some dp => renameAt fails fs (resolve cwd sp) (resolve cwd dp)
  | _, _ => none

/-- Go `os.Open` for reading: succeeds on any existing file or directory
unless the environment refuses. -/
def Open (cwd : Key) (fails : Bool) (fs : FS) (src : Option CleanPath) : Bool :=
  match Stat cwd fs src with
  | .ok _ => !fails
  | _ => false

/-- Go `os.Create`: creates the file, or truncates it when it exists. Fails
when the environment refuses, on a directory, for a name that is too long,
and when the containing directory is missing. -/
def Create (cwd : Key) (fails : Bool) (fs : FS) (dst : Option CleanPath) : Option FS :=
  match dst with
  | none => none
  | some dp =>
    let d := resolve cwd dp
    if fails then none
    else match fsGet fs d with
      | some .dir => none
      | some (.file _) => some (fsPut fs d (.file []))
      | none =>
        if tooLong d = false ∧ d ≠ [] ∧ fsGet fs d.dropLast = some Node.dir then
          some (fsPut fs d (.file []))
        else none

/-- Go `io.Copy(targetFile, sourceFile)` on the two open files: the bytes
the source holds at that moment are written to the target. `stops = some n`
is the environment failing after `n` bytes; reading a directory fails.
Returns whether the copy succeeded, and the resulting file system. -/
def Copy (cwd : Key) (stops : Option Nat) (fs : FS) (src dst : Option CleanPath) : Bool × FS :=
  match src, dst with
  | some sp, some dp =>
    match fsGet fs (resolve cwd sp) with
    | some (.file c) =>
      match stops with
      | none => (true, fsPut fs (resolve cwd dp) (.file c))
      | some n => (false, fsPut fs (resolve cwd dp) (.file (c.take n)))
    | _ => (false, fs)
  | _, _ => (false, fs)

/-- Go `os.Remove`: removes a file or an empty directory. `none` is an
error and leaves the file system as it was. -/
def Remove (cwd : Key) (fails : Bool) (fs : FS) (src : Option CleanPath) : Option FS :=
  match src with
  | none => none
  | some sp =>
    if fails then none
    else match fsGet fs (resolve cwd sp) with
      | some (.file _) => some (fsDel fs (resolve cwd sp))
      | some .dir =>
        if isEmptyDir fs (resolve cwd sp) then some (fsDel fs (resolve cwd sp)) else none
      | none => none

/-- The environment of one request: which of the underlying steps it lets
fail. -/
structure Faults where
  mkdirBudget : Option Nat
  renameFails : Bool
  openFails : Bool
  createFails : Bool
  copyStops : Option Nat
  removeFails : Bool
  deriving DecidableEq, Repr

/-- The environment in which no step fails. -/
def noFaults : Faults := ⟨none, false, false, false, none, false⟩

/-! ## The handlers of `main.go` -/

/-- Go `Category`. -/
structure Category where
  ID : String
  Name : String
  Path : String
  Shortcut : String
  deriving DecidableEq, Repr

/-- Go `Config`. -/
structure Config where
  SourceDir : String
  Categories : List Category
  SkipShortcut : String
  deriving DecidableEq, Repr

/-- Go `MoveRequest`. -/
structure MoveRequest where
  Filename : String
  CategoryID : String
  deriving DecidableEq, Repr

/-- Go `UndoRequest`. -/
structure UndoRequest where
  Filename : String
  FromPath : String
  ToPath : String
  deriving DecidableEq, Repr

/-- What a handler sends with `c.JSON`: the HTTP status and the body, which
for `MoveResponse` and `UndoResponse` alike has the two fields `success`
and `message`. The text that `%v` appends for an operating system error is
left out of `Message`. -/
structure Reply where
  status : Nat
  Success : Bool
  Message : String
  deriving DecidableEq, Repr

/-- The errors `moveFile` returns, one per `fmt.Errorf`. -/
inductive MoveFileError where
  | openSource
  | createTarget
  | copyFile
  | removeSource
  deriving DecidableEq, Repr

/-- The text of a `moveFile` error, up to the operating system detail. -/
def MoveFileError.text : MoveFileError → String
  | .openSource => "failed to open source file: "
  | .createTarget => "failed to create target file: "
  | .copyFile => "failed to copy file: "
  | .removeSource => "failed to remove source file after copy: "

/-- Go `moveFile`: rename, and when the rename fails, copy then delete.
Returns the error (`none` for `nil`) and the resulting file system. -/
def moveFile (cwd : Key) (f : Faults) (fs : FS) (sourcePath targetPath : Option CleanPath) :
    Option MoveFileError × FS :=
  match Rename cwd f.renameFails fs sourcePath targetPath with
  | some fs1 => (none, fs1)
  | none =>
    if Open cwd f.openFails fs sourcePath = false then (some .openSource, fs)
    else
      match Create cwd f.createFails fs targetPath with
      | none => (some .createTarget, fs)
      | some fs1 =>
        match Copy cwd f.copyStops fs1 sourcePath targetPath with
        | (false, fs2) => (some .copyFile, fs2)
        | (true, fs2) =>
          match Remove cwd f.removeFails fs2 sourcePath with
          | none => (some .removeSource, fs2)
          | some fs3 => (none, fs3)

/-- The category loop of `moveImage`: the first category with the
requested id. -/
def findCategory (categories : List Category) (id : String) : Option Category :=
  categories.find? (fun category => category.ID == id)

/-- The name `fmt.Sprintf("%s_%d%s", name, counter, ext)`. -/
def conflictName (name : Str) (counter : Nat) (ext : Str) : Str :=
  name ++ '_' :: itoa counter ++ ext

/-- Outcome of the renaming loop of `moveImage`. -/
inductive Probe where
  | found (newPath : CleanPath)
  | tooMany
  | unfinished
  deriving DecidableEq, Repr

/-- The `for` loop of `moveImage` from the value `counter`, run for at most
`fuel` rounds: the first `name_counter ext` in `targetDir` for which
`os.Stat` reports that it does not exist is taken; the loop gives up once
the counter has passed 1000. -/
def probe (cwd : Key) (fs : FS) (targetDir : CleanPath) (name ext : Str) :
    Nat → Nat → Probe
  | 0, _ => .unfinished
  | fuel + 1, counter =>
    let newPath := JoinClean targetDir (conflictName name counter ext)
    if Stat cwd fs (some newPath) = .notExist then .found newPath
    else if counter + 1 > 1000 then .tooMany
    else probe cwd fs targetDir name ext fuel (counter + 1)

/-- Where `moveImage` stands when it is about to call `moveFile`, or the
reply with which it returned before that. -/
inductive Plan where
  | reply (r : Reply) (fs : FS)
  | move (category : Category) (fs : FS) (sourcePath finalTargetPath : Option CleanPath)
  | unfinished
  deriving DecidableEq, Repr

/-- Go `moveImage` up to the call of `moveFile` (the request has been
parsed into `req`): category lookup, source check, `MkdirAll` of the target
directory, and the choice of the final target path. -/
def movePlan (cfg : Config) (cwd : Key) (f : Faults) (fs : FS) (req : MoveRequest) : Plan :=
  match findCategory cfg.Categories req.CategoryID with
  | none => .reply ⟨400, false, "Invalid category ID"⟩ fs
  | some targetCategory =>
    let sourcePath := Join cfg.SourceDir.toList req.Filename.toList
    let targetPath := Join targetCategory.Path.toList req.Filename.toList
    if Stat cwd fs sourcePath = .notExist then
      .reply ⟨404, false, "Source file not found"⟩ fs
    else
      let targetDir := Dir targetPath
      match MkdirAll cwd f.mkdirBudget fs targetDir with
      | (false, fs1) => .reply ⟨500, false, "Failed to create target directory: "⟩ fs1
      | (true, fs1) =>
        match Stat cwd fs1 targetPath with
        | .ok _ =>
          let ext := Ext req.Filename.toList
          let name := TrimSuffix req.Filename.toList ext
          match probe cwd fs1 targetDir name ext 1000 1 with
          | .found newPath => .move targetCategory fs1 sourcePath (some newPath)
          | .tooMany => .reply ⟨500, false, "Too many conflicting files"⟩ fs1
          | .unfinished => .unfinished
        | _ => .move targetCategory fs1 sourcePath targetPath

/-- Go `moveImage`: the reply sent and the resulting file system; `none`
only if the renaming loop did not finish. -/
def moveImage (cfg : Config) (cwd : Key) (f : Faults) (fs : FS) (req : MoveRequest) :
    Option (Reply × FS) :=
  match movePlan cfg cwd f fs req with
  | .reply r fs1 => some (r, fs1)
  | .unfinished => none
  | .move targetCategory fs1 sourcePath finalTargetPath =>
    match moveFile cwd f fs1 sourcePath finalTargetPath with
    | (some err, fs2) => some (⟨500, false, "Failed to move file: " ++ err.text⟩, fs2)
    | (none, fs2) => some (⟨200, true, "File moved to " ++ targetCategory.Name⟩, fs2)

/-- Outcome of the operating system resolving a path string: the location
it leads to (at which there may be nothing), ENOENT, or another error
(ENOTDIR, ENAMETOOLONG). -/
inductive Walk where
  | loc (k : Key)
  | notExist
  | otherErr
  deriving DecidableEq, Repr

/-- The operating system's walk along the elements of a path string from
the directory `cur` (no symbolic links). Every element is looked up in a
directory that must exist: a missing one is ENOENT, a regular file is
ENOTDIR. An empty element (doubled or trailing separator) and `.` stay,
`..` steps up, a name steps down; the last name need not exist. -/
def walk (fs : FS) : Key → List Seg → Walk
  | cur, [] => .loc cur
  | cur, c :: rest =>
    match fsGet fs cur with
    | none => .notExist
    | some (.file _) => .otherErr
    | some .dir =>
      if c = [] ∨ c = ['.'] then walk fs cur rest
      else if c = ['.', '.'] then walk fs cur.dropLast rest
      else if 255 < nameBytes c then .otherErr
      else
        match rest with
        | [] => .loc (cur ++ [c])
        | _ :: _ => walk fs (cur ++ [c]) rest

/-- Where the operating system finds a path string given as it is (not
cleaned): from the root for a rooted path, else from the working
directory. The empty string is ENOENT. -/
def locate (cwd : Key) (fs : FS) (path : Str) : Walk :=
  if path = [] then .notExist
  else walk fs (if path.head? = some '/' then [] else cwd) (splitSlash path)

/-- Go `os.Stat` of a path string given as it is. -/
def StatRaw (cwd : Key) (fs : FS) (path : Str) : StatResult :=
  match locate cwd fs path with
  | .loc k =>
    match fsGet fs k with
    | some n => .ok n
    | none => .notExist
  | .notExist => .notExist
  | .otherErr => .otherErr

/-- Go `os.Rename` of two path strings given as they are. -/
def RenameRaw (cwd : Key) (fails : Bool) (fs : FS) (oldpath newpath : Str) : Option FS :=
  match locate cwd fs oldpath, locate cwd fs newpath with
  | .loc s, .loc d => renameAt fails fs s d
  | _, _ => none

/-- Where `undoImage` stands after its two checks: it has replied, or it
goes on to `os.Rename`. -/
inductive UndoPlan where
  | reply (r : Reply)
  | rename
  deriving DecidableEq, Repr

/-- Go `undoImage` up to the call of `os.Rename` (the request has been
parsed into `req`): the check of `toPath` with `os.IsNotExist(err)` and the
check of `fromPath` with `err == nil`. -/
def undoPlan (cwd : Key) (fs : FS) (req : UndoRequest) : UndoPlan :=
  if StatRaw cwd fs req.ToPath.toList = .notExist then
    .reply ⟨404, false, "Target file not found"⟩
  else
    match StatRaw cwd fs req.FromPath.toList with
    | .ok _ => .reply ⟨409, false, "Original file location already occupied"⟩
    | _ => .rename

/-- Go `undoImage`: the reply sent and the resulting file system. -/
def undoImage (cwd : Key) (renameFails : Bool) (fs : FS) (req : UndoRequest) : Reply × FS :=
  match undoPlan cwd fs req with
  | .reply r => (r, fs)
  | .rename =>
    match RenameRaw cwd renameFails fs req.ToPath.toList req.FromPath.toList with
    | none => (⟨500, false, "Failed to undo move: "⟩, fs)
    | some fs1 => (⟨200, true, "Move operation undone successfully"⟩, fs1)

/-! ### Scanning -/

/-- Go `fs.DirEntry`, as far as `scanImageFiles` looks at it. -/
structure DirEntry where
  name : String
  isDir : Bool
  deriving DecidableEq, Repr

/-- Outcome of `os.ReadDir`: the entries in enumeration order, an error for
which `os.IsNotExist` holds, or another error. -/
inductive ReadDirResult where
  | entries (files : List DirEntry)
  | notExist
  | otherErr
  deriving DecidableEq, Repr

/-- The test `ext == ".jpg" || ext == ".jpeg" || ext == ".png" || ext == ".webp"`. -/
def isImageExt (ext : Str) : Bool :=
  ext == ".jpg".toList || ext == ".jpeg".toList || ext == ".png".toList
    || ext == ".webp".toList

/-- The `for` loop of `scanImageFiles`: appends the name of every entry
that is not a directory and has an image extension. -/
def scanLoop : List DirEntry → List String → List String
  | [], images => images
  | file :: rest, images =>
    if !file.isDir then
      if isImageExt (ToLower (Ext file.name.toList)) then scanLoop rest (images ++ [file.name])
      else scanLoop rest images
    else scanLoop rest images

/-- Go `scanImageFiles`, given what `os.ReadDir(dir)` returned: the image
names, or `none` for a returned error. -/
def scanImageFiles (read : ReadDirResult) : Option (List String) :=
  match read with
  | .notExist => some []
  | .otherErr => none
  | .entries files => some (scanLoop files [])

/-! ### Configuration -/

/-- The value viper holds under the key `categories`: a `[]Category` (after
`SetDefault` or `Set`), or a value of another type (after a file was read),
on which the assertion `.([]Category)` does not hold. -/
inductive CategoriesValue where
  | typed (categories : List Category)
  | other
  deriving DecidableEq, Repr

/-- The process-wide state the configuration handlers touch: the viper
keys, the configuration file last written, and the file system. -/
structure AppState where
  sourceDir : String
  categories : CategoriesValue
  skipShortcut : String
  saved : Option Config
  fs : FS
  deriving DecidableEq, Repr

/-- Go `createOutputDirs` over the category list: `MkdirAll` of every
category path, a failure only being logged. The directory made is that of
the cleaned path (for a path with `..` elements `os.MkdirAll` may make
further directories, which are left out). `budgets` gives the
environment of each call in turn (none left: no failure). -/
def createOutputDirs (cwd : Key) : List Category → List (Option Nat) → FS → FS
  | [], _, fs => fs
  | category :: rest, budgets, fs =>
    let fs1 :=
      if category.Path.toList = [] then fs
      else (MkdirAll cwd (budgets.head?.getD none) fs (Clean category.Path.toList)).2
    createOutputDirs cwd rest budgets.tail fs1

/-- Go `getConfig`: the body sent with status 200, or `none` when the type
assertion on `categories` fails. -/
def getConfig (st : AppState) : Option Config :=
  match st.categories with
  | .typed categories => some ⟨st.sourceDir, categories, st.skipShortcut⟩
  | .other => none

/-- Go `updateConfig` (the request has been parsed into `config`): the
three `viper.Set` calls, `saveConfig` (which only logs when `persistOk` is
false), and `createOutputDirs`. Replies 200 in every case. -/
def updateConfig (cwd : Key) (persistOk : Bool) (budgets : List (Option Nat))
    (st : AppState) (config : Config) : Reply × AppState :=
  let st1 : AppState :=
    { st with sourceDir := config.SourceDir
              categories := .typed config.Categories
              skipShortcut := config.SkipShortcut }
  let st2 : AppState := if persistOk then { st1 with saved := some config } else st1
  (⟨200, true, "Configuration updated successfully"⟩,
    { st2 with fs := createOutputDirs cwd config.Categories budgets st2.fs })

/-- The text of a cleaned path, as Go holds it in a string. -/
def render (p : CleanPath) : String :=
  let elems := List.replicate p.ups "..".toList ++ p.comps
  if p.rooted then String.mk ('/' :: List.intercalate ['/'] elems)
  else if elems = [] then "." else String.mk (List.intercalate ['/'] elems)

/-! ## Reference definitions, following the specification's wording -/

/-- The recognised image extensions of the specification. -/
def imageExts : List Str := [".jpg".toList, ".jpeg".toList, ".png".toList, ".webp".toList]

/-- Case-insensitive equality of two strings. -/
def eqFold (a b : Str) : Bool := a.map Char.toLower == b.map Char.toLower

/-- The scanner of the specification: nothing for a directory that does
not exist; otherwise the names, in enumeration order, of the direct entries
that are not subdirectories and whose extension is, case-insensitively, a
recognised one. A read failure is passed on. -/
def scanSpec : ReadDirResult → Option (List String)
  | .notExist => some []
  | .otherErr => none
  | .entries files =>
    some ((files.filter (fun e => !e.isDir && imageExts.any (eqFold (Ext e.name.toList)))).map
      (fun e => e.name))

/-- Base name and extension of a file name, as the specification splits
it: the extension begins at the last dot, and is empty for a name without
a dot. -/
def splitExt : Str → Str × Str
  | [] => ([], [])
  | c :: cs =>
    match splitExt cs with
    | (base, []) => if c = '.' then ([], c :: cs) else (c :: base, [])
    | (base, e :: ext) => (c :: base, e :: ext)

/-- The decimal numeral of `k`. -/
def decimal (k : Nat) : Str := (Nat.repr k).toList

/-- The `k`-th alternative name of the specification for a file name with
base name `name` and extension `ext`: `name_k ext`, so `photo_1.jpg` for
`photo.jpg`. -/
def altName (filename : Str) (k : Nat) : Str :=
  (splitExt filename).1 ++ "_".toList ++ decimal k ++ (splitExt filename).2

/-- The path `d/n` of a plain name `n` in the directory `d`. -/
def child (d : CleanPath) (n : Seg) : CleanPath :=
  { d with comps := d.comps ++ [n] }

/-- The collision rule of the specification over a target directory, given
which paths are found to exist and which are found not to exist:
`targetDir/filename` unless that is found to exist; otherwise the
alternative `targetDir/name_k ext` for the least `k` from 1 to 1000 found
not to exist; and nothing (too many conflicts) when there is none. -/
def resolveSpec (found missing : CleanPath → Bool) (targetDir : CleanPath) (filename : Str) :
    Option CleanPath :=
  if found (child targetDir filename) then
    ((List.range' 1 1000).find? (fun k => missing (child targetDir (altName filename k)))).map
      (fun k => child targetDir (altName filename k))
  else some (child targetDir filename)

/-- A plain file name: not empty, without a separator, and neither `.` nor
`..`. -/
def PlainName (n : Str) : Prop :=
  '/' ∉ n ∧ n ≠ [] ∧ n ≠ ['.'] ∧ n ≠ ['.', '.']

instance (n : Str) : Decidable (PlainName n) := by
  unfold PlainName; infer_instance

/-- The directory of a category: its path, cleaned (`.` for the empty
path). -/
def categoryDir (category : Category) : CleanPath :=
  if category.Path.toList = [] then dot else Clean category.Path.toList

/-- Whether `os.Stat` succeeds on a path (`err == nil`). -/
def statFinds (cwd : Key) (fs : FS) (p : CleanPath) : Bool :=
  match Stat cwd fs (some p) with
  | .ok _ => true
  | _ => false

/-- Whether `os.Stat` reports that a path does not exist
(`os.IsNotExist(err)`). -/
def statMissing (cwd : Key) (fs : FS) (p : CleanPath) : Bool :=
  decide (Stat cwd fs (some p) = .notExist)

/-! ## Sample states -/

/-- A location from its names. -/
def key (names : List String) : Key := names.map String.toList

/-- The working directory of the samples. -/
def sampleCwd : Key := key ["w"]

/-- A configuration with two categories. -/
def sampleConfig : Config :=
  ⟨"src", [⟨"frontal", "Frontal", "out/frontal", "1"⟩, ⟨"side", "Side", "out/side", "2"⟩], " "⟩

/-- A tree with `photo.jpg` in the source directory and another
`photo.jpg` already in the first category. -/
def sampleFS : FS :=
  [(key [], .dir), (key ["w"], .dir), (key ["w", "src"], .dir),
   (key ["w", "src", "photo.jpg"], .file [1, 2, 3]),
   (key ["w", "out"], .dir), (key ["w", "out", "frontal"], .dir),
   (key ["w", "out", "frontal", "photo.jpg"], .file [9])]

/-- The same tree without the `photo.jpg` in the first category. -/
def sampleFreeFS : FS :=
  [(key [], .dir), (key ["w"], .dir), (key ["w", "src"], .dir),
   (key ["w", "src", "photo.jpg"], .file [1, 2, 3]),
   (key ["w", "out"], .dir), (key ["w", "out", "frontal"], .dir)]

/-- A tree with `sub/photo.jpg` both in the source directory and in the
first category. -/
def nestedFS : FS :=
  [(key [], .dir), (key ["w"], .dir), (key ["w", "src"], .dir), (key ["w", "src", "sub"], .dir),
   (key ["w", "src", "sub", "photo.jpg"], .file [1, 2, 3]),
   (key ["w", "out"], .dir), (key ["w", "out", "frontal"], .dir),
   (key ["w", "out", "frontal", "sub"], .dir),
   (key ["w", "out", "frontal", "sub", "photo.jpg"], .file [9])]

/-- The first sample tree after `photo.jpg` has been moved into the first
category under the name `photo_1.jpg`. -/
def sampleMovedFS : FS :=
  [(key [], .dir), (key ["w"], .dir), (key ["w", "src"], .dir),
   (key ["w", "out", "frontal", "photo_1.jpg"], .file [1, 2, 3]),
   (key ["w", "out"], .dir), (key ["w", "out", "frontal"], .dir),
   (key ["w", "out", "frontal", "photo.jpg"], .file [9])]

/-- The environment in which source and categories lie on different
devices: every rename is refused, every other step succeeds. -/
def crossDevice : Faults := ⟨none, true, false, false, none, false⟩

/-- A tree in which the category directories have not been made. -/
def bareFS : FS :=
  [(key [], .dir), (key ["w"], .dir), (key ["w", "src"], .dir),
   (key ["w", "src", "photo.jpg"], .file [1, 2, 3]), (key ["w", "out"], .dir)]

/-- A tree whose source directory holds a directory `album` with a file
in it. -/
def albumFS : FS :=
  [(key [], .dir), (key ["w"], .dir), (key ["w", "src"], .dir), (key ["w", "src", "album"], .dir),
   (key ["w", "src", "album", "x.png"], .file [7]),
   (key ["w", "out"], .dir), (key ["w", "out", "frontal"], .dir)]

/-- The configuration of the scenario of the specification. -/
def scenarioConfig : Config :=
  ⟨"./source_images", [⟨"frontal", "正脸", "./output/frontal", "1"⟩], " "⟩

/-- The tree of the scenario of the specification: `a.png` and `b.txt` in
the source directory. -/
def scenarioFS : FS :=
  [(key [], .dir), (key ["w"], .dir), (key ["w", "source_images"], .dir),
   (key ["w", "source_images", "a.png"], .file [1]),
   (key ["w", "source_images", "b.txt"], .file [2]),
   (key ["w", "output"], .dir), (key ["w", "output", "frontal"], .dir)]

/-- The final target path `moveImage` hands to `moveFile`, if it gets
there. -/
def Plan.finalTargetPath : Plan → Option CleanPath
  | .move _ _ _ p => p
  | _ => none

/-- The file system in which `moveImage` calls `moveFile`, if it gets
there. -/
def Plan.fsAtMove : Plan → Option FS
  | .move _ fs _ _ => some fs
  | _ => none

/-! ## Lemmas on the file system model -/

theorem fsGet_fsDel_self (fs : FS) (k : Key) : fsGet (fsDel fs k) k = none := by
  induction fs with
  | nil => rfl
  | cons e rest ih =>
    by_cases hk : e.1 = k
    · simp [fsDel, hk, ih]
    · simp [fsDel, hk, fsGet, ih]

theorem fsGet_fsDel_ne (fs : FS) (k q : Key) (h : q ≠ k) :
    fsGet (fsDel fs k) q = fsGet fs q := by
  induction fs with
  | nil => rfl
  | cons e rest ih =>
    by_cases hk : e.1 = k
    · have hq : ¬ k = q := fun h1 => h h1.symm
      simp [fsDel, hk, fsGet, hq, ih]
    · by_cases hq : e.1 = q
      · simp only [fsDel, hk, if_false]
        simp only [fsGet, hq, if_true]
      · simp only [fsDel, hk, if_false, fsGet, hq, ih]

theorem fsGet_fsPut_self (fs : FS) (k : Key) (n : Node) : fsGet (fsPut fs k n) k = some n := by
  simp [fsPut, fsGet]

theorem fsGet_fsPut_ne (fs : FS) (k q : Key) (n : Node) (h : q ≠ k) :
    fsGet (fsPut fs k n) q = fsGet fs q := by
  have h1 : ¬ k = q := fun e => h e.symm
  simp only [fsPut, fsGet, h1, if_false]
  exact fsGet_fsDel_ne fs k q h

theorem fsGet_mem (fs : FS) (k : Key) (n : Node) (h : fsGet fs k = some n) : (k, n) ∈ fs := by
  induction fs with
  | nil => simp [fsGet] at h
  | cons e rest ih =>
    obtain ⟨ek, en⟩ := e
    by_cases hk : ek = k
    · simp only [fsGet, hk, if_true, Option.some.injEq] at h
      subst hk; subst h
      exact List.mem_cons_self _ _
    · simp only [fsGet, hk, if_false] at h
      exact List.mem_cons_of_mem _ (ih h)

theorem mem_fsDel (fs : FS) (k : Key) (e : Key × Node) (h : e ∈ fsDel fs k) : e ∈ fs ∧ e.1 ≠ k := by
  induction fs with
  | nil => simp [fsDel] at h
  | cons x rest ih =>
    by_cases hk : x.1 = k
    · simp only [fsDel, hk, if_true] at h
      exact ⟨List.mem_cons_of_mem _ (ih h).1, (ih h).2⟩
    · simp only [fsDel, hk, if_false, List.mem_cons] at h
      rcases h with h | h
      · subst h
        exact ⟨List.mem_cons_self _ _, hk⟩
      · exact ⟨List.mem_cons_of_mem _ (ih h).1, (ih h).2⟩

theorem strip_eq_some_iff (src k r : Key) : strip src k = some r ↔ k = src ++ r := by
  induction src generalizing k with
  | nil => simp [strip, eq_comm]
  | cons a as ih =>
    cases k with
    | nil => simp [strip]
    | cons b bs =>
      by_cases hab : a = b
      · simp [strip, hab, ih]
      · have hba : ¬ b = a := fun e => hab e.symm
        simp [strip, hab, hba]

theorem strip_append (src r : Key) : strip src (src ++ r) = some r :=
  (strip_eq_some_iff src (src ++ r) r).2 rfl

theorem strip_self (k : Key) : strip k k = some [] := by
  have := strip_append k []
  simpa using this

theorem strip_eq_none_iff (src k : Key) : strip src k = none ↔ ∀ r, k ≠ src ++ r := by
  constructor
  · intro h r hr
    rw [(strip_eq_some_iff src k r).2 hr] at h
    cases h
  · intro h
    cases hs : strip src k with
    | none => rfl
    | some r => exact absurd ((strip_eq_some_iff src k r).1 hs) (h r)

/-- Two locations neither of which lies below the other stay apart
whatever is appended to the first. -/
theorem strip_append_none (src dst r : Key) (h1 : strip dst src = none)
    (h2 : strip src dst = none) : strip dst (src ++ r) = none := by
  induction dst generalizing src with
  | nil => simp [strip] at h1
  | cons a as ih =>
    cases src with
    | nil => simp [strip] at h2
    | cons b bs =>
      by_cases hab : a = b
      · subst hab
        simp only [strip, if_true] at h1 h2
        simpa [strip] using ih bs h1 h2
      · simp [strip, hab]


theorem ne_of_strip_none (src k r : Key) (h : strip src k = none) : k ≠ src ++ r :=
  (strip_eq_none_iff src k).1 h r

theorem strip_isSome_iff (src k : Key) : (strip src k).isSome ↔ ∃ r, k = src ++ r := by
  constructor
  · intro h
    obtain ⟨r, hr⟩ := Option.isSome_iff_exists.1 h
    exact ⟨r, (strip_eq_some_iff src k r).1 hr⟩
  · rintro ⟨r, hr⟩
    rw [(strip_eq_some_iff src k r).2 hr]
    rfl

theorem strip_not_isSome (src k : Key) (h : ¬ (strip src k).isSome) : strip src k = none := by
  cases hs : strip src k with
  | none => rfl
  | some r => rw [hs] at h; exact absurd rfl h

theorem rekey_some (src dst r : Key) (e : Key × Node) (h : strip src e.1 = some r) :
    rekey src dst e = (dst ++ r, e.2) := by
  simp only [rekey, h]

theorem rekey_none (src dst : Key) (e : Key × Node) (h : strip src e.1 = none) :
    rekey src dst e = e := by
  simp only [rekey, h]

/-- A rename leaves every location outside both trees as it was. -/
theorem fsGet_fsMove_other (fs : FS) (src dst q : Key) (hd : strip dst q = none)
    (hs : strip src q = none) : fsGet (fsMove fs src dst) q = fsGet fs q := by
  induction fs with
  | nil => rfl
  | cons e rest ih =>
    by_cases h1 : (strip dst e.1).isSome
    · obtain ⟨r, hr⟩ := (strip_isSome_iff dst e.1).1 h1
      have hne : ¬ e.1 = q := fun h => ne_of_strip_none dst q r hd (h ▸ hr)
      simp only [fsMove, h1, if_true, fsGet, hne, if_false]
      exact ih
    · simp only [fsMove, h1, if_false]
      cases h2 : strip src e.1 with
      | some r =>
        have hne : ¬ e.1 = q := fun h => by
          rw [h, hs] at h2; cases h2
        have hne2 : ¬ dst ++ r = q := fun h => ne_of_strip_none dst q r hd h.symm
        rw [rekey_some src dst r e h2]
        simp only [fsGet, hne, hne2, if_false]
        exact ih
      | none =>
        rw [rekey_none src dst e h2]
        by_cases hq : e.1 = q
        · simp only [fsGet, hq, if_true]
        · simp only [fsGet, hq, if_false]
          exact ih

/-- After a rename between two locations neither of which lies below the
other, what was at `src ++ r` is at `dst ++ r`. -/
theorem fsGet_fsMove_dst (fs : FS) (src dst r : Key) (h1 : strip dst src = none)
    (h2 : strip src dst = none) :
    fsGet (fsMove fs src dst) (dst ++ r) = fsGet fs (src ++ r) := by
  have hsr : strip dst (src ++ r) = none := strip_append_none src dst r h1 h2
  induction fs with
  | nil => rfl
  | cons e rest ih =>
    by_cases h3 : (strip dst e.1).isSome
    · obtain ⟨r1, hr1⟩ := (strip_isSome_iff dst e.1).1 h3
      have hne : ¬ e.1 = src ++ r := fun h => ne_of_strip_none dst _ r1 hsr (h ▸ hr1)
      simp only [fsMove, h3, if_true, fsGet, hne, if_false]
      exact ih
    · simp only [fsMove, h3, if_false]
      have h3n : strip dst e.1 = none := strip_not_isSome _ _ h3
      cases h4 : strip src e.1 with
      | some r1 =>
        have he : e.1 = src ++ r1 := (strip_eq_some_iff src e.1 r1).1 h4
        rw [rekey_some src dst r1 e h4]
        by_cases hr : r1 = r
        · subst hr
          simp only [fsGet, he, if_true]
        · have hne : ¬ dst ++ r1 = dst ++ r := fun h => hr (List.append_cancel_left h)
          have hne2 : ¬ e.1 = src ++ r := fun h => by
            rw [he] at h; exact hr (List.append_cancel_left h)
          simp only [fsGet, hne, hne2, if_false]
          exact ih
      | none =>
        rw [rekey_none src dst e h4]
        have hne : ¬ e.1 = dst ++ r := ne_of_strip_none dst e.1 r h3n
        have hne2 : ¬ e.1 = src ++ r := ne_of_strip_none src e.1 r h4
        simp only [fsGet, hne, hne2, if_false]
        exact ih

/-- After a rename nothing is left at or below the source. -/
theorem fsGet_fsMove_src (fs : FS) (src dst q r : Key) (hs : strip src q = some r)
    (hd : strip dst q = none) : fsGet (fsMove fs src dst) q = none := by
  induction fs with
  | nil => rfl
  | cons e rest ih =>
    by_cases h1 : (strip dst e.1).isSome
    · simp only [fsMove, h1, if_true]
      exact ih
    · simp only [fsMove, h1, if_false]
      cases h2 : strip src e.1 with
      | some r1 =>
        have hne : ¬ dst ++ r1 = q := fun h => ne_of_strip_none dst q r1 hd h.symm
        rw [rekey_some src dst r1 e h2]
        simp only [fsGet, hne, if_false]
        exact ih
      | none =>
        have hne : ¬ e.1 = q := fun h => by
          rw [h, hs] at h2; cases h2
        rw [rekey_none src dst e h2]
        simp only [fsGet, hne, if_false]
        exact ih


/-! ## Ancestors, well-formedness and `os.MkdirAll` -/

theorem ancestors_snoc (pre : Key) (r : Seg) : ancestors (pre ++ [r]) = ancestors pre ++ [pre] := by
  induction pre with
  | nil => rfl
  | cons a p ih =>
    show [] :: (ancestors (p ++ [r])).map (a :: ·) = ([] :: (ancestors p).map (a :: ·)) ++ [a :: p]
    rw [ih]
    simp only [List.map_append, List.map_cons, List.map_nil, List.cons_append]

theorem mem_ancestors_iff (q k : Key) : q ∈ ancestors k ↔ ∃ a r, k = q ++ a :: r := by
  induction k generalizing q with
  | nil =>
    simp only [ancestors, List.not_mem_nil, false_iff]
    rintro ⟨a, r, h⟩
    cases q <;> cases h
  | cons b k ih =>
    simp only [ancestors, List.mem_cons, List.mem_map]
    constructor
    · rintro (h | ⟨q1, hq1, rfl⟩)
      · subst h
        exact ⟨b, k, rfl⟩
      · obtain ⟨a, r, hr⟩ := (ih q1).1 hq1
        exact ⟨a, r, by rw [hr]; rfl⟩
    · rintro ⟨a, r, h⟩
      cases q with
      | nil => exact Or.inl rfl
      | cons c q1 =>
        simp only [List.cons_append, List.cons.injEq] at h
        obtain ⟨h1, h2⟩ := h
        subst h1
        exact Or.inr ⟨q1, (ih q1).2 ⟨a, r, h2⟩, rfl⟩

theorem ne_of_mem_ancestors (q k : Key) (h : q ∈ ancestors k) : q ≠ k := by
  obtain ⟨a, r, hr⟩ := (mem_ancestors_iff q k).1 h
  intro e
  subst e
  have := congrArg List.length hr
  simp at this

/-- In a well-formed file system nothing that exists lies at or below a
location that does not. -/
theorem strip_none_of_absent {fs : FS} (hwf : WF fs) {d k : Key} {n : Node}
    (hd : fsGet fs d = none) (hk : fsGet fs k = some n) : strip d k = none := by
  cases hs : strip d k with
  | none => rfl
  | some r =>
    have hkr := (strip_eq_some_iff d k r).1 hs
    cases r with
    | nil =>
      simp only [List.append_nil] at hkr
      subst hkr
      rw [hd] at hk; cases hk
    | cons a r1 =>
      have hmem := (mem_ancestors_iff d k).2 ⟨a, r1, hkr⟩
      have := hwf (k, n) (fsGet_mem fs k n hk) d hmem
      rw [hd] at this; cases this

/-- The parent of an existing, non-root location of a well-formed file
system is a directory. -/
theorem parent_dir_of_WF {fs : FS} (hwf : WF fs) {k : Key} {n : Node}
    (hk : fsGet fs k = some n) (hne : k ≠ []) : fsGet fs k.dropLast = some Node.dir := by
  have hmem : k.dropLast ∈ ancestors k := by
    refine (mem_ancestors_iff _ _).2 ⟨k.getLast hne, [], ?_⟩
    exact (List.dropLast_append_getLast hne).symm
  exact hwf (k, n) (fsGet_mem fs k n hk) _ hmem

theorem WF_fsPut_dir {fs : FS} (hwf : WF fs) {q : Key}
    (hq : ∀ a ∈ ancestors q, fsGet fs a = some Node.dir) : WF (fsPut fs q .dir) := by
  intro e he a ha
  by_cases hqa : a = q
  · subst hqa
    exact fsGet_fsPut_self _ _ _
  · rw [fsGet_fsPut_ne _ _ _ _ hqa]
    simp only [fsPut, List.mem_cons] at he
    rcases he with he | he
    · subst he
      exact hq a ha
    · exact hwf e (mem_fsDel fs q e he).1 a ha

/-- What one visit of `os.MkdirAll` has done when it did not fail. -/
theorem mkdirStep_inv {fs fs1 : FS} {b b1 : Option Nat} {q : Key}
    (h : mkdirStep fs b q = some (fs1, b1)) :
    (fsGet fs q = some Node.dir ∧ fs1 = fs) ∨ (fsGet fs q = none ∧ fs1 = fsPut fs q .dir) := by
  unfold mkdirStep at h
  cases hg : fsGet fs q with
  | none =>
    rw [hg] at h
    simp only at h
    by_cases hl : tooLong q = true
    · rw [if_pos hl] at h; cases h
    · rw [if_neg hl] at h
      cases b with
      | none =>
        simp only [Option.some.injEq, Prod.mk.injEq] at h
        exact Or.inr ⟨rfl, h.1.symm⟩
      | some m =>
        cases m with
        | zero => cases h
        | succ m1 =>
          simp only [Option.some.injEq, Prod.mk.injEq] at h
          exact Or.inr ⟨rfl, h.1.symm⟩
  | some n =>
    rw [hg] at h
    cases n with
    | file c => cases h
    | dir =>
      simp only [Option.some.injEq, Prod.mk.injEq] at h
      exact Or.inl ⟨rfl, h.1.symm⟩

theorem mkdirStep_keeps {fs fs1 : FS} {b b1 : Option Nat} {q k : Key} {n : Node}
    (h : mkdirStep fs b q = some (fs1, b1)) (hk : fsGet fs k = some n) :
    fsGet fs1 k = some n := by
  rcases mkdirStep_inv h with ⟨_, h2⟩ | ⟨h1, h2⟩
  · rw [h2]; exact hk
  · have hne : k ≠ q := fun e => by
      rw [e, h1] at hk; cases hk
    rw [h2, fsGet_fsPut_ne _ _ _ _ hne, hk]

theorem mkdirStep_dir {fs fs1 : FS} {b b1 : Option Nat} {q : Key}
    (h : mkdirStep fs b q = some (fs1, b1)) : fsGet fs1 q = some Node.dir := by
  rcases mkdirStep_inv h with ⟨h1, h2⟩ | ⟨_, h2⟩
  · rw [h2]; exact h1
  · rw [h2]; exact fsGet_fsPut_self _ _ _

/-- The directory chain never removes or alters what exists, whether it
succeeds or fails. -/
theorem mkdirChain_keeps (fs : FS) (b : Option Nat) (pre : Key) (rest : List Seg) (k : Key)
    (n : Node) (hk : fsGet fs k = some n) : fsGet (mkdirChain fs b pre rest).2 k = some n := by
  induction rest generalizing fs b pre with
  | nil =>
    unfold mkdirChain
    cases hs : mkdirStep fs b pre with
    | none => exact hk
    | some out =>
      obtain ⟨fs1, b1⟩ := out
      exact mkdirStep_keeps hs hk
  | cons r rs ih =>
    unfold mkdirChain
    cases hs : mkdirStep fs b pre with
    | none => exact hk
    | some out =>
      obtain ⟨fs1, b1⟩ := out
      exact ih fs1 b1 (pre ++ [r]) (mkdirStep_keeps hs hk)

/-- After a successful chain every location from `pre` down to the wanted
directory is a directory. -/
theorem mkdirChain_dirs (fs fs1 : FS) (b : Option Nat) (pre : Key) (rest : List Seg)
    (h : mkdirChain fs b pre rest = (true, fs1)) (r1 r2 : List Seg) (hr : rest = r1 ++ r2) :
    fsGet fs1 (pre ++ r1) = some Node.dir := by
  induction rest generalizing fs b pre r1 with
  | nil =>
    have h1 : r1 = [] := by
      cases r1 with
      | nil => rfl
      | cons a t => cases hr
    subst h1
    unfold mkdirChain at h
    cases hs : mkdirStep fs b pre with
    | none => rw [hs] at h; cases h
    | some out =>
      obtain ⟨fs2, b2⟩ := out
      rw [hs] at h
      simp only [Prod.mk.injEq, true_and] at h
      subst h
      simpa using mkdirStep_dir hs
  | cons r rs ih =>
    unfold mkdirChain at h
    cases hs : mkdirStep fs b pre with
    | none => rw [hs] at h; cases h
    | some out =>
      obtain ⟨fs2, b2⟩ := out
      rw [hs] at h
      simp only at h
      cases r1 with
      | nil =>
        have := mkdirChain_keeps fs2 b2 (pre ++ [r]) rs pre .dir (mkdirStep_dir hs)
        rw [h] at this
        simpa using this
      | cons a t =>
        simp only [List.cons_append, List.cons.injEq] at hr
        obtain ⟨hra, hrt⟩ := hr
        subst hra
        have := ih fs2 b2 (pre ++ [r]) h t hrt
        simpa using this

/-- The directory chain keeps a file system well-formed. -/
theorem mkdirChain_WF (fs : FS) (b : Option Nat) (pre : Key) (rest : List Seg) (hwf : WF fs)
    (hpre : ∀ a ∈ ancestors pre, fsGet fs a = some Node.dir) :
    WF (mkdirChain fs b pre rest).2 := by
  induction rest generalizing fs b pre with
  | nil =>
    unfold mkdirChain
    cases hs : mkdirStep fs b pre with
    | none => exact hwf
    | some out =>
      obtain ⟨fs1, b1⟩ := out
      rcases mkdirStep_inv hs with ⟨_, h2⟩ | ⟨_, h2⟩
      · rw [h2]; exact hwf
      · rw [h2]; exact WF_fsPut_dir hwf hpre
  | cons r rs ih =>
    unfold mkdirChain
    cases hs : mkdirStep fs b pre with
    | none => exact hwf
    | some out =>
      obtain ⟨fs1, b1⟩ := out
      simp only
      have hwf1 : WF fs1 := by
        rcases mkdirStep_inv hs with ⟨_, h2⟩ | ⟨_, h2⟩
        · rw [h2]; exact hwf
        · rw [h2]; exact WF_fsPut_dir hwf hpre
      refine ih fs1 b1 (pre ++ [r]) hwf1 ?_
      intro a ha
      rw [ancestors_snoc, List.mem_append, List.mem_singleton] at ha
      rcases ha with ha | ha
      · exact mkdirStep_keeps hs (hpre a ha)
      · rw [ha]; exact mkdirStep_dir hs


/-! ## `os.Rename` and `moveFile` -/

/-- What a successful `os.Rename` has done. -/
theorem renameAt_inv {fails : Bool} {fs fs1 : FS} {s d : Key}
    (h : renameAt fails fs s d = some fs1) :
    (∃ n, fsGet fs s = some n) ∧
    ((s = d ∧ fs1 = fs) ∨
      (s ≠ d ∧ fails = false ∧ strip s d = none ∧ strip d s = none ∧ fs1 = fsMove fs s d)) := by
  unfold renameAt at h
  cases hn : fsGet fs s with
  | none => rw [hn] at h; cases h
  | some n =>
    rw [hn] at h
    simp only at h
    refine ⟨⟨n, rfl⟩, ?_⟩
    cases hgd : fsGet fs d with
    | none =>
      rw [hgd] at h
      simp only at h
      have hsd : s ≠ d := fun e => by rw [e, hgd] at hn; cases hn
      by_cases hf : fails = true
      · rw [if_pos hf] at h; cases h
      · rw [if_neg hf] at h
        by_cases hl : tooLong d = true
        · rw [if_pos hl] at h; cases h
        · rw [if_neg hl] at h
          by_cases hd : d = []
          · rw [if_pos hd] at h; cases h
          · rw [if_neg hd] at h
            by_cases hpar : fsGet fs d.dropLast ≠ some Node.dir
            · rw [if_pos hpar] at h; cases h
            · rw [if_neg hpar] at h
              by_cases hst : (strip s d).isSome = true ∨ (strip d s).isSome = true
              · rw [if_pos hst] at h; cases h
              · rw [if_neg hst] at h
                exact Or.inr ⟨hsd, Bool.eq_false_iff.2 hf,
                  strip_not_isSome _ _ (fun e => hst (Or.inl e)),
                  strip_not_isSome _ _ (fun e => hst (Or.inr e)), (Option.some.inj h).symm⟩
    | some m =>
      rw [hgd] at h
      cases m with
      | dir => cases h
      | file c =>
        simp only at h
        by_cases hsd : s = d
        · rw [if_pos hsd] at h
          exact Or.inl ⟨hsd, (Option.some.inj h).symm⟩
        · rw [if_neg hsd] at h
          by_cases hf : fails = true
          · rw [if_pos hf] at h; cases h
          · rw [if_neg hf] at h
            by_cases hst : (strip s d).isSome = true ∨ (strip d s).isSome = true
            · rw [if_pos hst] at h; cases h
            · rw [if_neg hst] at h
              cases n with
              | dir => cases h
              | file c2 =>
                exact Or.inr ⟨hsd, Bool.eq_false_iff.2 hf,
                  strip_not_isSome _ _ (fun e => hst (Or.inl e)),
                  strip_not_isSome _ _ (fun e => hst (Or.inr e)), (Option.some.inj h).symm⟩

theorem Rename_inv {cwd : Key} {fails : Bool} {fs fs1 : FS} {sp dp : CleanPath}
    (h : Rename cwd fails fs (some sp) (some dp) = some fs1) :
    (∃ n, fsGet fs (resolve cwd sp) = some n) ∧
    ((resolve cwd sp = resolve cwd dp ∧ fs1 = fs) ∨
      (resolve cwd sp ≠ resolve cwd dp ∧ fails = false ∧
        strip (resolve cwd sp) (resolve cwd dp) = none ∧
        strip (resolve cwd dp) (resolve cwd sp) = none ∧
        fs1 = fsMove fs (resolve cwd sp) (resolve cwd dp))) :=
  renameAt_inv h

/-- A successful `os.Rename` between two different locations puts the
source node at the target and leaves nothing at the source. -/
theorem Rename_moves {cwd : Key} {fails : Bool} {fs fs1 : FS} {sp dp : CleanPath} {n : Node}
    (h : Rename cwd fails fs (some sp) (some dp) = some fs1)
    (hn : fsGet fs (resolve cwd sp) = some n) (hne : resolve cwd sp ≠ resolve cwd dp) :
    fsGet fs1 (resolve cwd dp) = some n ∧ fsGet fs1 (resolve cwd sp) = none := by
  obtain ⟨_, h1 | ⟨_, _, hsd, hds, hfs⟩⟩ := Rename_inv h
  · exact absurd h1.1 hne
  · subst hfs
    constructor
    · have := fsGet_fsMove_dst fs (resolve cwd sp) (resolve cwd dp) [] hds hsd
      simpa [hn] using this
    · exact fsGet_fsMove_src fs _ _ _ [] (strip_self _) hds

/-- The outcomes of `moveFile` on an existing source and a target at another
location: without an error the node is at the target and gone from the
source; when only the final removal fails it is at both; on every other
error the source is untouched. -/
theorem moveFile_outcomes (cwd : Key) (f : Faults) (fs : FS) (sp : CleanPath)
    (dst : Option CleanPath) (n : Node) (hn : fsGet fs (resolve cwd sp) = some n)
    (hne : ∀ dp, dst = some dp → resolve cwd sp ≠ resolve cwd dp) :
    ((moveFile cwd f fs (some sp) dst).1 = none →
      (∃ dp, dst = some dp ∧ fsGet (moveFile cwd f fs (some sp) dst).2 (resolve cwd dp) = some n) ∧
      fsGet (moveFile cwd f fs (some sp) dst).2 (resolve cwd sp) = none) ∧
    ((moveFile cwd f fs (some sp) dst).1 = some .removeSource →
      (∃ dp, dst = some dp ∧ fsGet (moveFile cwd f fs (some sp) dst).2 (resolve cwd dp) = some n) ∧
      fsGet (moveFile cwd f fs (some sp) dst).2 (resolve cwd sp) = some n) ∧
    (∀ e, (moveFile cwd f fs (some sp) dst).1 = some e → e ≠ .removeSource →
      fsGet (moveFile cwd f fs (some sp) dst).2 (resolve cwd sp) = some n) := by
  cases dst with
  | none =>
    have hr : Rename cwd f.renameFails fs (some sp) none = none := rfl
    have hc : Create cwd f.createFails fs none = none := rfl
    unfold moveFile
    rw [hr, hc]
    simp only
    by_cases ho : Open cwd f.openFails fs (some sp) = false
    · rw [if_pos ho]
      refine ⟨fun h => (by cases h), fun h => (by cases h), fun e _ _ => hn⟩
    · rw [if_neg ho]
      refine ⟨fun h => (by cases h), fun h => (by cases h), fun e _ _ => hn⟩
  | some dp =>
    have hsd := hne dp rfl
    unfold moveFile
    cases hr : Rename cwd f.renameFails fs (some sp) (some dp) with
    | some fs1 =>
      simp only
      obtain ⟨h1, h2⟩ := Rename_moves hr hn hsd
      refine ⟨fun _ => ⟨⟨dp, rfl, h1⟩, h2⟩, fun h => (by cases h), fun e h => (by cases h)⟩
    | none =>
      simp only
      by_cases ho : Open cwd f.openFails fs (some sp) = false
      · rw [if_pos ho]
        refine ⟨fun h => (by cases h), fun h => (by cases h), fun e _ _ => hn⟩
      · rw [if_neg ho]
        cases hc : Create cwd f.createFails fs (some dp) with
        | none =>
          simp only
          refine ⟨fun h => (by cases h), fun h => (by cases h), fun e _ _ => hn⟩
        | some fs1 =>
          simp only
          have hfs1 : fs1 = fsPut fs (resolve cwd dp) (.file []) := by
            unfold Create at hc
            simp only at hc
            by_cases hcf : f.createFails = true
            · rw [if_pos hcf] at hc; cases hc
            · rw [if_neg hcf] at hc
              cases hg : fsGet fs (resolve cwd dp) with
              | none =>
                rw [hg] at hc
                simp only at hc
                split at hc
                · exact (Option.some.inj hc).symm
                · cases hc
              | some m =>
                rw [hg] at hc
                cases m with
                | dir => cases hc
                | file c => exact (Option.some.inj hc).symm
          have hs1 : fsGet fs1 (resolve cwd sp) = some n := by
            rw [hfs1, fsGet_fsPut_ne _ _ _ _ hsd, hn]
          unfold Copy
          simp only [hs1]
          cases n with
          | dir =>
            simp only
            refine ⟨fun h => (by cases h), fun h => (by cases h), fun e _ _ => hs1⟩
          | file c =>
            simp only
            cases hst : f.copyStops with
            | some k =>
              simp only
              refine ⟨fun h => (by cases h), fun h => (by cases h), fun e _ _ => ?_⟩
              rw [fsGet_fsPut_ne _ _ _ _ hsd, hs1]
            | none =>
              simp only
              have hs2 : fsGet (fsPut fs1 (resolve cwd dp) (.file c)) (resolve cwd sp)
                  = some (.file c) := by
                rw [fsGet_fsPut_ne _ _ _ _ hsd, hs1]
              have hd2 : fsGet (fsPut fs1 (resolve cwd dp) (.file c)) (resolve cwd dp)
                  = some (.file c) := fsGet_fsPut_self _ _ _
              unfold Remove
              simp only [hs2]
              by_cases hrf : f.removeFails = true
              · rw [if_pos hrf]
                simp only
                refine ⟨fun h => (by cases h), fun _ => ⟨⟨dp, rfl, hd2⟩, hs2⟩,
                  fun e h hx => absurd (Option.some.inj h).symm hx⟩
              · rw [if_neg hrf]
                simp only
                refine ⟨fun _ => ⟨⟨dp, rfl, ?_⟩, fsGet_fsDel_self _ _⟩, fun h => (by cases h),
                  fun e h => (by cases h)⟩
                rw [fsGet_fsDel_ne _ _ _ (fun e => hsd e.symm), hd2]


/-! ## The stages of `moveImage` -/

/-- What is known when `moveImage` reaches the call of `moveFile`. -/
theorem movePlan_move_inv {cfg : Config} {cwd : Key} {f : Faults} {fs fs1 : FS}
    {req : MoveRequest} {cat : Category} {src p : Option CleanPath}
    (h : movePlan cfg cwd f fs req = .move cat fs1 src p) :
    findCategory cfg.Categories req.CategoryID = some cat ∧
    src = Join cfg.SourceDir.toList req.Filename.toList ∧
    Stat cwd fs src ≠ .notExist ∧
    MkdirAll cwd f.mkdirBudget fs (Dir (Join cat.Path.toList req.Filename.toList)) = (true, fs1) ∧
    (((∀ n, Stat cwd fs1 (Join cat.Path.toList req.Filename.toList) ≠ .ok n) ∧
        p = Join cat.Path.toList req.Filename.toList) ∨
      ((∃ n, Stat cwd fs1 (Join cat.Path.toList req.Filename.toList) = .ok n) ∧
        ∃ newPath, p = some newPath ∧
          probe cwd fs1 (Dir (Join cat.Path.toList req.Filename.toList))
            (TrimSuffix req.Filename.toList (Ext req.Filename.toList))
            (Ext req.Filename.toList) 1000 1 = .found newPath)) := by
  unfold movePlan at h
  cases hc : findCategory cfg.Categories req.CategoryID with
  | none => rw [hc] at h; cases h
  | some c =>
    rw [hc] at h
    simp only at h
    by_cases hs : Stat cwd fs (Join cfg.SourceDir.toList req.Filename.toList) = .notExist
    · rw [if_pos hs] at h; cases h
    · rw [if_neg hs] at h
      cases hm : MkdirAll cwd f.mkdirBudget fs (Dir (Join c.Path.toList req.Filename.toList)) with
      | mk ok fsm =>
        rw [hm] at h
        cases ok with
        | false => cases h
        | true =>
          simp only at h
          cases ht : Stat cwd fsm (Join c.Path.toList req.Filename.toList) with
          | ok n =>
            rw [ht] at h
            simp only at h
            cases hp : probe cwd fsm (Dir (Join c.Path.toList req.Filename.toList))
                (TrimSuffix req.Filename.toList (Ext req.Filename.toList))
                (Ext req.Filename.toList) 1000 1 with
            | found newPath =>
              rw [hp] at h
              simp only [Plan.move.injEq] at h
              obtain ⟨h1, h2, h3, h4⟩ := h
              subst h1; subst h2; subst h3; subst h4
              exact ⟨rfl, rfl, hs, hm, Or.inr ⟨⟨n, ht⟩, newPath, rfl, hp⟩⟩
            | tooMany => rw [hp] at h; cases h
            | unfinished => rw [hp] at h; cases h
          | notExist =>
            rw [ht] at h
            simp only [Plan.move.injEq] at h
            obtain ⟨h1, h2, h3, h4⟩ := h
            subst h1; subst h2; subst h3; subst h4
            exact ⟨rfl, rfl, hs, hm, Or.inl ⟨fun n hn => (by rw [ht] at hn; cases hn), rfl⟩⟩
          | otherErr =>
            rw [ht] at h
            simp only [Plan.move.injEq] at h
            obtain ⟨h1, h2, h3, h4⟩ := h
            subst h1; subst h2; subst h3; subst h4
            exact ⟨rfl, rfl, hs, hm, Or.inl ⟨fun n hn => (by rw [ht] at hn; cases hn), rfl⟩⟩

/-- Every reply `moveImage` sends before it reaches `moveFile` is a
failure. -/
theorem movePlan_reply_failure {cfg : Config} {cwd : Key} {f : Faults} {fs fs1 : FS}
    {req : MoveRequest} {r : Reply} (h : movePlan cfg cwd f fs req = .reply r fs1) :
    r.Success = false := by
  unfold movePlan at h
  cases hc : findCategory cfg.Categories req.CategoryID with
  | none =>
    rw [hc] at h
    simp only [Plan.reply.injEq] at h
    rw [← h.1]
  | some c =>
    rw [hc] at h
    simp only at h
    by_cases hs : Stat cwd fs (Join cfg.SourceDir.toList req.Filename.toList) = .notExist
    · rw [if_pos hs] at h
      simp only [Plan.reply.injEq] at h
      rw [← h.1]
    · rw [if_neg hs] at h
      cases hm : MkdirAll cwd f.mkdirBudget fs (Dir (Join c.Path.toList req.Filename.toList)) with
      | mk ok fsm =>
        rw [hm] at h
        cases ok with
        | false =>
          simp only [Plan.reply.injEq] at h
          rw [← h.1]
        | true =>
          simp only at h
          cases ht : Stat cwd fsm (Join c.Path.toList req.Filename.toList) with
          | ok n =>
            rw [ht] at h
            simp only at h
            cases hp : probe cwd fsm (Dir (Join c.Path.toList req.Filename.toList))
                (TrimSuffix req.Filename.toList (Ext req.Filename.toList))
                (Ext req.Filename.toList) 1000 1 with
            | found newPath => rw [hp] at h; cases h
            | tooMany =>
              rw [hp] at h
              simp only [Plan.reply.injEq] at h
              rw [← h.1]
            | unfinished => rw [hp] at h; cases h
          | notExist => rw [ht] at h; cases h
          | otherErr => rw [ht] at h; cases h


theorem Stat_none_of_not_ok {cwd : Key} {fs : FS} {p : CleanPath}
    (h : ∀ n, Stat cwd fs (some p) ≠ .ok n) : fsGet fs (resolve cwd p) = none := by
  cases hg : fsGet fs (resolve cwd p) with
  | none => rfl
  | some n =>
    exfalso
    apply h n
    simp only [Stat, hg]

theorem Stat_none_of_notExist {cwd : Key} {fs : FS} {p : CleanPath}
    (h : Stat cwd fs (some p) = .notExist) : fsGet fs (resolve cwd p) = none :=
  Stat_none_of_not_ok (fun n hn => by rw [h] at hn; cases hn)

theorem Stat_ok_of_some {cwd : Key} {fs : FS} {p : CleanPath} {n : Node}
    (h : fsGet fs (resolve cwd p) = some n) : Stat cwd fs (some p) = .ok n := by
  simp only [Stat, h]

/-- A source that `os.Stat` does not report as missing, and that can be
renamed or opened, exists. -/
theorem Stat_cases (cwd : Key) (fs : FS) (p : CleanPath) :
    (∃ n, fsGet fs (resolve cwd p) = some n ∧ Stat cwd fs (some p) = .ok n) ∨
    (fsGet fs (resolve cwd p) = none ∧
      (Stat cwd fs (some p) = .notExist ∨ Stat cwd fs (some p) = .otherErr)) := by
  cases hg : fsGet fs (resolve cwd p) with
  | some n => exact Or.inl ⟨n, rfl, Stat_ok_of_some hg⟩
  | none =>
    refine Or.inr ⟨rfl, ?_⟩
    simp only [Stat, hg, statAbsent]
    split
    · exact Or.inr rfl
    · split
      · exact Or.inr rfl
      · exact Or.inl rfl

/-- The renaming loop only ever takes a path that `os.Stat` reports as not
existing. -/
theorem probe_found {cwd : Key} {fs : FS} {targetDir : CleanPath} {name ext : Str}
    (fuel counter : Nat) {newPath : CleanPath}
    (h : probe cwd fs targetDir name ext fuel counter = .found newPath) :
    Stat cwd fs (some newPath) = .notExist := by
  induction fuel generalizing counter with
  | zero => cases h
  | succ fuel ih =>
    unfold probe at h
    simp only at h
    by_cases h1 : Stat cwd fs (some (JoinClean targetDir (conflictName name counter ext)))
        = .notExist
    · rw [if_pos h1] at h
      simp only [Probe.found.injEq] at h
      rw [← h]; exact h1
    · rw [if_neg h1] at h
      by_cases h2 : counter + 1 > 1000
      · rw [if_pos h2] at h; cases h
      · rw [if_neg h2] at h
        exact ih _ h

/-- The renaming loop ends within the rounds its counter allows. -/
theorem probe_finishes (cwd : Key) (fs : FS) (targetDir : CleanPath) (name ext : Str)
    (fuel counter : Nat) (h1 : 1000 < counter + fuel) (h2 : 1 ≤ fuel) :
    probe cwd fs targetDir name ext fuel counter ≠ .unfinished := by
  induction fuel generalizing counter with
  | zero => omega
  | succ fuel ih =>
    unfold probe
    simp only
    split
    · intro h; cases h
    · split
      · intro h; cases h
      · exact ih (counter + 1) (by omega) (by omega)

/-- The handler `moveImage` always returns. -/
theorem movePlan_finishes (cfg : Config) (cwd : Key) (f : Faults) (fs : FS) (req : MoveRequest) :
    movePlan cfg cwd f fs req ≠ .unfinished := by
  unfold movePlan
  split
  · intro h; cases h
  · simp only
    split
    · intro h; cases h
    · split
      · intro h; cases h
      · split
        · split
          · intro h; cases h
          · intro h; cases h
          · rename_i hp
            exact absurd hp (probe_finishes _ _ _ _ _ 1000 1 (by omega) (by omega))
        · intro h; cases h

/-- The file system a reply of `moveImage` before `moveFile` leaves: the
one it found, possibly with directories added by `os.MkdirAll`. -/
theorem movePlan_reply_fs {cfg : Config} {cwd : Key} {f : Faults} {fs fs1 : FS}
    {req : MoveRequest} {r : Reply} (h : movePlan cfg cwd f fs req = .reply r fs1) :
    fs1 = fs ∨ ∃ d, fs1 = (MkdirAll cwd f.mkdirBudget fs d).2 := by
  unfold movePlan at h
  split at h
  · simp only [Plan.reply.injEq] at h
    exact Or.inl h.2.symm
  · simp only at h
    split at h
    · simp only [Plan.reply.injEq] at h
      exact Or.inl h.2.symm
    · split at h
      · rename_i hm
        simp only [Plan.reply.injEq] at h
        have e := congrArg Prod.snd hm
        exact Or.inr ⟨_, (e.trans h.2).symm⟩
      · rename_i hm
        split at h
        · split at h
          · cases h
          · simp only [Plan.reply.injEq] at h
            have e := congrArg Prod.snd hm
            exact Or.inr ⟨_, (e.trans h.2).symm⟩
          · cases h
        · cases h

/-- A well-formed file system stays well-formed under `os.MkdirAll`. -/
theorem MkdirAll_WF (cwd : Key) (b : Option Nat) (fs : FS) (d : CleanPath) (hwf : WF fs) :
    WF (MkdirAll cwd b fs d).2 :=
  mkdirChain_WF fs b [] _ hwf (fun a ha => by simp [ancestors] at ha)

theorem MkdirAll_keeps (cwd : Key) (b : Option Nat) (fs : FS) (d : CleanPath) (k : Key) (n : Node)
    (hk : fsGet fs k = some n) : fsGet (MkdirAll cwd b fs d).2 k = some n :=
  mkdirChain_keeps fs b [] _ k n hk

theorem Create_inv {cwd : Key} {fails : Bool} {fs fs1 : FS} {dp : CleanPath}
    (h : Create cwd fails fs (some dp) = some fs1) :
    fs1 = fsPut fs (resolve cwd dp) (.file []) ∧ fsGet fs (resolve cwd dp) ≠ some Node.dir ∧
    (fsGet fs (resolve cwd dp) = none →
      resolve cwd dp ≠ [] ∧ fsGet fs (resolve cwd dp).dropLast = some Node.dir) := by
  unfold Create at h
  simp only at h
  split at h
  · cases h
  · split at h
    · cases h
    · rename_i hg
      exact ⟨(Option.some.inj h).symm, fun e => (by rw [hg] at e; cases e),
        fun e => (by rw [hg] at e; cases e)⟩
    · rename_i hg
      split at h
      · rename_i hpar
        exact ⟨(Option.some.inj h).symm, fun e => (by rw [hg] at e; cases e), fun _ => hpar.2⟩
      · cases h

theorem Open_exists {cwd : Key} {fails : Bool} {fs : FS} {sp : CleanPath}
    (h : ¬ Open cwd fails fs (some sp) = false) : ∃ n, fsGet fs (resolve cwd sp) = some n := by
  rcases Stat_cases cwd fs sp with ⟨n, hn, _⟩ | ⟨_, h1 | h1⟩
  · exact ⟨n, hn⟩
  · exact absurd (by simp only [Open, h1]) h
  · exact absurd (by simp only [Open, h1]) h

theorem Copy_true_inv {cwd : Key} {stops : Option Nat} {fs fs1 : FS} {sp dp : CleanPath}
    (h : Copy cwd stops fs (some sp) (some dp) = (true, fs1)) :
    ∃ c, fsGet fs (resolve cwd sp) = some (.file c) ∧
      fs1 = fsPut fs (resolve cwd dp) (.file c) := by
  unfold Copy at h
  simp only at h
  split at h
  · rename_i c hg
    split at h
    · simp only [Prod.mk.injEq, true_and] at h
      exact ⟨c, hg, h.symm⟩
    · simp only [Prod.mk.injEq, Bool.false_eq_true, false_and] at h
  · simp only [Prod.mk.injEq, Bool.false_eq_true, false_and] at h

/-- Nothing lies below a regular file: a location other than the file whose
parent is a directory is not below the file. -/
theorem strip_none_of_file {fs : FS} (hwf : WF fs) {s d : Key} {c : List Nat}
    (hs : fsGet fs s = some (.file c)) (hne : s ≠ d) (hd : d ≠ [])
    (hpar : fsGet fs d.dropLast = some Node.dir) : strip s d = none := by
  cases hst : strip s d with
  | none => rfl
  | some r =>
    exfalso
    have hdr := (strip_eq_some_iff s d r).1 hst
    cases r with
    | nil => simp only [List.append_nil] at hdr; exact hne hdr.symm
    | cons a r1 =>
      have hmem : s ∈ ancestors d := (mem_ancestors_iff s d).2 ⟨a, r1, hdr⟩
      rw [← List.dropLast_append_getLast hd, ancestors_snoc, List.mem_append,
        List.mem_singleton] at hmem
      rcases hmem with hmem | hmem
      · have := hwf (d.dropLast, .dir) (fsGet_mem fs _ _ hpar) s hmem
        rw [hs] at this; cases this
      · rw [hmem, hpar] at hs; cases hs

/-- What is known when `moveFile` has succeeded on a target that did not
exist: the source existed, and neither location lies below the other. -/
theorem moveFile_success_inv {cwd : Key} {f : Faults} {fs fs2 : FS} (hwf : WF fs)
    {sp dp : CleanPath} (habs : fsGet fs (resolve cwd dp) = none)
    (h : moveFile cwd f fs (some sp) (some dp) = (none, fs2)) :
    ∃ n, fsGet fs (resolve cwd sp) = some n ∧
      strip (resolve cwd sp) (resolve cwd dp) = none ∧
      strip (resolve cwd dp) (resolve cwd sp) = none := by
  unfold moveFile at h
  cases hr : Rename cwd f.renameFails fs (some sp) (some dp) with
  | some fs1 =>
    obtain ⟨⟨n, hn⟩, h1 | ⟨_, _, hsd, hds, _⟩⟩ := Rename_inv hr
    · rw [h1.1, habs] at hn; cases hn
    · exact ⟨n, hn, hsd, hds⟩
  | none =>
    rw [hr] at h
    simp only at h
    by_cases ho : Open cwd f.openFails fs (some sp) = false
    · rw [if_pos ho] at h; cases h
    · rw [if_neg ho] at h
      cases hc : Create cwd f.createFails fs (some dp) with
      | none => rw [hc] at h; cases h
      | some fs1 =>
        rw [hc] at h
        simp only at h
        obtain ⟨hfs1, _, hpar⟩ := Create_inv hc
        cases hcp : Copy cwd f.copyStops fs1 (some sp) (some dp) with
        | mk ok fs3 =>
          rw [hcp] at h
          cases ok with
          | false => cases h
          | true =>
            obtain ⟨c, hc1, _⟩ := Copy_true_inv hcp
            have hne : resolve cwd sp ≠ resolve cwd dp := by
              intro e
              obtain ⟨m, hm⟩ := Open_exists ho
              rw [e, habs] at hm
              cases hm
            rw [hfs1, fsGet_fsPut_ne _ _ _ _ hne] at hc1
            exact ⟨_, hc1, strip_none_of_file hwf hc1 hne (hpar habs).1 (hpar habs).2,
              strip_none_of_absent hwf habs hc1⟩

theorem Copy_keeps (cwd : Key) (stops : Option Nat) (fs : FS) (src : Option CleanPath)
    (dp : CleanPath) (k : Key) (n : Node) (hkd : k ≠ resolve cwd dp) (hk : fsGet fs k = some n) :
    fsGet (Copy cwd stops fs src (some dp)).2 k = some n := by
  unfold Copy
  cases src with
  | none => exact hk
  | some sp =>
    simp only
    cases fsGet fs (resolve cwd sp) with
    | none => exact hk
    | some m =>
      cases m with
      | dir => exact hk
      | file c =>
        cases stops with
        | none => simp only; rw [fsGet_fsPut_ne _ _ _ _ hkd, hk]
        | some j => simp only; rw [fsGet_fsPut_ne _ _ _ _ hkd, hk]

theorem Remove_inv {cwd : Key} {fails : Bool} {fs fs1 : FS} {sp : CleanPath}
    (h : Remove cwd fails fs (some sp) = some fs1) : fs1 = fsDel fs (resolve cwd sp) := by
  unfold Remove at h
  simp only at h
  split at h
  · cases h
  · split at h
    · exact (Option.some.inj h).symm
    · split at h
      · exact (Option.some.inj h).symm
      · cases h
    · cases h

/-- Whatever existed before `moveFile`, outside the tree of the source,
is still there afterwards, when the target did not exist. -/
theorem moveFile_keeps_others (cwd : Key) (f : Faults) (fs : FS) (hwf : WF fs)
    (sp : CleanPath) (dst : Option CleanPath)
    (hd : ∀ dp, dst = some dp → fsGet fs (resolve cwd dp) = none) (k : Key) (n : Node)
    (hk : fsGet fs k = some n) (hs : strip (resolve cwd sp) k = none) :
    fsGet (moveFile cwd f fs (some sp) dst).2 k = some n := by
  cases dst with
  | none =>
    have hr : Rename cwd f.renameFails fs (some sp) none = none := rfl
    have hc : Create cwd f.createFails fs none = none := rfl
    unfold moveFile
    rw [hr, hc]
    simp only
    split <;> exact hk
  | some dp =>
    have hdn := hd dp rfl
    have hkd : k ≠ resolve cwd dp := fun e => by
      rw [e, hdn] at hk; cases hk
    have hks : k ≠ resolve cwd sp := fun e => by
      rw [e, strip_self] at hs; cases hs
    unfold moveFile
    cases hr : Rename cwd f.renameFails fs (some sp) (some dp) with
    | some fs1 =>
      simp only
      obtain ⟨_, h1 | ⟨_, _, _, _, hfs⟩⟩ := Rename_inv hr
      · rw [h1.2]; exact hk
      · rw [hfs, fsGet_fsMove_other fs _ _ k (strip_none_of_absent hwf hdn hk) hs]
        exact hk
    | none =>
      simp only
      split
      · exact hk
      · cases hc : Create cwd f.createFails fs (some dp) with
        | none => exact hk
        | some fs1 =>
          simp only
          have hk1 : fsGet fs1 k = some n := by
            rw [(Create_inv hc).1, fsGet_fsPut_ne _ _ _ _ hkd, hk]
          have hk2 := Copy_keeps cwd f.copyStops fs1 (some sp) dp k n hkd hk1
          cases hcp : Copy cwd f.copyStops fs1 (some sp) (some dp) with
          | mk ok fs2 =>
            rw [hcp] at hk2
            simp only at hk2
            cases ok with
            | false => exact hk2
            | true =>
              simp only
              cases hrm : Remove cwd f.removeFails fs2 (some sp) with
              | none => exact hk2
              | some fs3 =>
                simp only
                rw [Remove_inv hrm, fsGet_fsDel_ne _ _ _ hks]
                exact hk2


/-- When `moveImage` reaches `moveFile`, nothing exists at the final target
path. -/
theorem movePlan_target_absent {cfg : Config} {cwd : Key} {f : Faults} {fs fs1 : FS}
    {req : MoveRequest} {cat : Category} {src p : Option CleanPath}
    (h : movePlan cfg cwd f fs req = .move cat fs1 src p) (dp : CleanPath) (hp : p = some dp) :
    fsGet fs1 (resolve cwd dp) = none := by
  obtain ⟨_, _, _, _, ⟨hnok, hpt⟩ | ⟨_, np, hpn, hprobe⟩⟩ := movePlan_move_inv h
  · rw [← hpt, hp] at hnok
    exact Stat_none_of_not_ok hnok
  · rw [hp] at hpn
    cases hpn
    exact Stat_none_of_notExist (probe_found _ _ hprobe)

/-- When `moveImage` reaches `moveFile`, the source path is a real path
and the file system is the initial one after `os.MkdirAll`. -/
theorem movePlan_move_source {cfg : Config} {cwd : Key} {f : Faults} {fs fs1 : FS}
    {req : MoveRequest} {cat : Category} {src p : Option CleanPath}
    (h : movePlan cfg cwd f fs req = .move cat fs1 src p) :
    (∃ sp, src = some sp ∧ Join cfg.SourceDir.toList req.Filename.toList = some sp) ∧
    ∃ d, fs1 = (MkdirAll cwd f.mkdirBudget fs d).2 := by
  obtain ⟨_, hsrc, hstat, hm, _⟩ := movePlan_move_inv h
  constructor
  · cases src with
    | none => exact absurd rfl hstat
    | some sp => exact ⟨sp, rfl, hsrc.symm⟩
  · exact ⟨_, (congrArg Prod.snd hm).symm⟩

theorem moveFile_no_target (cwd : Key) (f : Faults) (fs fs2 : FS) (src : Option CleanPath) :
    moveFile cwd f fs src none ≠ (none, fs2) := by
  have hr : Rename cwd f.renameFails fs src none = none := by
    cases src <;> rfl
  have hc : Create cwd f.createFails fs none = none := rfl
  unfold moveFile
  rw [hr, hc]
  simp only
  split <;> intro h <;> cases h

theorem strip_dropLast_none (s : Key) (h : s ≠ []) : strip s s.dropLast = none := by
  cases hs : strip s s.dropLast with
  | none => rfl
  | some r =>
    exfalso
    have h1 := congrArg List.length ((strip_eq_some_iff _ _ _).1 hs)
    have h2 : 0 < s.length := List.length_pos.2 h
    simp only [List.length_dropLast, List.length_append] at h1
    omega

/-- A successful reply of `moveImage` comes from a successful `moveFile`. -/
theorem moveImage_success_inv (cfg : Config) (cwd : Key) (f : Faults) (fs fs2 : FS)
    (req : MoveRequest) (r : Reply) (h : moveImage cfg cwd f fs req = some (r, fs2))
    (hs : r.Success = true) :
    ∃ cat fs1 src p, findCategory cfg.Categories req.CategoryID = some cat ∧
      movePlan cfg cwd f fs req = .move cat fs1 src p ∧
      moveFile cwd f fs1 src p = (none, fs2) ∧
      r = ⟨200, true, "File moved to " ++ cat.Name⟩ := by
  unfold moveImage at h
  cases hp : movePlan cfg cwd f fs req with
  | reply r1 fs1 =>
    rw [hp] at h
    simp only [Option.some.injEq, Prod.mk.injEq] at h
    have := movePlan_reply_failure hp
    rw [h.1, hs] at this
    cases this
  | unfinished => rw [hp] at h; cases h
  | move cat fs1 src p =>
    rw [hp] at h
    simp only at h
    cases hm : moveFile cwd f fs1 src p with
    | mk err fsm =>
      rw [hm] at h
      cases err with
      | some e =>
        simp only [Option.some.injEq, Prod.mk.injEq] at h
        rw [← h.1] at hs
        cases hs
      | none =>
        simp only [Option.some.injEq, Prod.mk.injEq] at h
        refine ⟨cat, fs1, src, p, (movePlan_move_inv hp).1, rfl, ?_, h.1.symm⟩
        rw [hm, h.2]


/-! ## No move overwrites (C1) -/

/-- C1, as stated, fails: the request names the directory `album` of the
source directory. The move succeeds and takes the whole directory along, so
the file `src/album/x.png`, which is at another path than the source path
`src/album`, no longer exists at its path afterwards. -/
theorem moveImage_directory_takes_files_along :
    fsGet albumFS (key ["w", "src", "album", "x.png"]) = some (.file [7]) ∧
    (Join "src".toList "album".toList).map (resolve sampleCwd) = some (key ["w", "src", "album"]) ∧
    (moveImage sampleConfig sampleCwd noFaults albumFS ⟨"album", "frontal"⟩).map (·.1)
      = some ⟨200, true, "File moved to Frontal"⟩ ∧
    (moveImage sampleConfig sampleCwd noFaults albumFS ⟨"album", "frontal"⟩).map
      (fun out => fsGet out.2 (key ["w", "src", "album", "x.png"])) = some none := by
  decide

/-- C1, amended: on a well-formed file system `moveImage` always returns,
whatever the request and whichever steps the environment lets fail; when it
gets as far as a final target path, nothing existed at that path before the
request; and every file or directory that existed before the request at a
location that is neither the source path nor below it is still there, with
the same content, afterwards. -/
theorem moveImage_never_overwrites (cfg : Config) (cwd : Key) (f : Faults) (fs : FS)
    (req : MoveRequest) (hwf : WF fs) :
    ∃ r fs2, moveImage cfg cwd f fs req = some (r, fs2) ∧
      (∀ p, (movePlan cfg cwd f fs req).finalTargetPath = some p →
        fsGet fs (resolve cwd p) = none) ∧
      (∀ k n, fsGet fs k = some n →
        (∀ sp, Join cfg.SourceDir.toList req.Filename.toList = some sp →
          strip (resolve cwd sp) k = none) →
        fsGet fs2 k = some n) := by
  unfold moveImage
  cases hp : movePlan cfg cwd f fs req with
  | unfinished => exact absurd hp (movePlan_finishes cfg cwd f fs req)
  | reply r fs1 =>
    refine ⟨r, fs1, rfl, fun p h => (by cases h), fun k n hk _ => ?_⟩
    rcases movePlan_reply_fs hp with h1 | ⟨d, h1⟩
    · rw [h1]; exact hk
    · rw [h1]; exact MkdirAll_keeps cwd _ fs d k n hk
  | move cat fs1 src p =>
    obtain ⟨⟨sp, hsp, hjoin⟩, d, hfs1⟩ := movePlan_move_source hp
    have habs := movePlan_target_absent hp
    have hwf1 : WF fs1 := by rw [hfs1]; exact MkdirAll_WF cwd _ fs d hwf
    have hfinal : ∀ q, (Plan.move cat fs1 src p).finalTargetPath = some q →
        fsGet fs (resolve cwd q) = none := by
      intro q hq
      have h1 := habs q hq
      cases hg : fsGet fs (resolve cwd q) with
      | none => rfl
      | some n =>
        have := MkdirAll_keeps cwd f.mkdirBudget fs d _ n hg
        rw [← hfs1, h1] at this
        cases this
    have hkeep : ∀ k n, fsGet fs k = some n →
        (∀ sp, Join cfg.SourceDir.toList req.Filename.toList = some sp →
          strip (resolve cwd sp) k = none) →
        fsGet (moveFile cwd f fs1 src p).2 k = some n := by
      intro k n hk hs
      have hk1 : fsGet fs1 k = some n := by
        rw [hfs1]; exact MkdirAll_keeps cwd _ fs d k n hk
      rw [hsp]
      exact moveFile_keeps_others cwd f fs1 hwf1 sp p habs k n hk1 (hs sp hjoin)
    simp only
    cases hm : moveFile cwd f fs1 src p with
    | mk err fs2 =>
      rw [hm] at hkeep
      cases err with
      | none => exact ⟨_, fs2, rfl, hfinal, hkeep⟩
      | some e => exact ⟨_, fs2, rfl, hfinal, hkeep⟩

theorem moveImage_never_overwrites_witness :
    WF sampleFS ∧
    ∃ r fs2, moveImage sampleConfig sampleCwd noFaults sampleFS ⟨"photo.jpg", "frontal"⟩
        = some (r, fs2) ∧
      (∀ p, (movePlan sampleConfig sampleCwd noFaults sampleFS
          ⟨"photo.jpg", "frontal"⟩).finalTargetPath = some p →
        fsGet sampleFS (resolve sampleCwd p) = none) ∧
      (∀ k n, fsGet sampleFS k = some n →
        (∀ sp, Join sampleConfig.SourceDir.toList "photo.jpg".toList = some sp →
          strip (resolve sampleCwd sp) k = none) →
        fsGet fs2 k = some n) :=
  ⟨by decide, moveImage_never_overwrites sampleConfig sampleCwd noFaults sampleFS
    ⟨"photo.jpg", "frontal"⟩ (by decide)⟩

/-! ## `moveFile` never loses the file (C9) -/

/-- On a target that is the location of the source, `moveFile` changes
nothing: a file is renamed onto itself, and for a directory the rename and
then `os.Create` fail. -/
theorem moveFile_same_location (cwd : Key) (f : Faults) (fs : FS) (sp dp : CleanPath) (n : Node)
    (hn : fsGet fs (resolve cwd sp) = some n) (e : resolve cwd sp = resolve cwd dp) :
    (moveFile cwd f fs (some sp) (some dp)).2 = fs ∧
    (moveFile cwd f fs (some sp) (some dp)).1 ≠ some .removeSource ∧
    (Rename cwd f.renameFails fs (some sp) (some dp) = none →
      Create cwd f.createFails fs (some dp) = none) := by
  have hd : fsGet fs (resolve cwd dp) = some n := by rw [← e]; exact hn
  cases n with
  | file c =>
    have hr : Rename cwd f.renameFails fs (some sp) (some dp) = some fs := by
      simp only [Rename, renameAt, hn, hd, e, if_true]
    simp only [moveFile, hr, ne_eq, reduceCtorEq, not_false_eq_true, false_implies, and_self]
  | dir =>
    have hr : Rename cwd f.renameFails fs (some sp) (some dp) = none := by
      simp only [Rename, renameAt, hn, hd]
    have hc : Create cwd f.createFails fs (some dp) = none := by
      simp only [Create, hd]
      split <;> rfl
    unfold moveFile
    rw [hr, hc]
    simp only
    split <;> simp

/-- C9: for every source path that exists, every target path and every
outcome of the rename, open, create, copy and remove steps, after
`moveFile` the file with its full content is at the source path or at the
target path, never at neither; it is gone from the source only when
`moveFile` returns no error and the file is at the target; when the rename
has failed, open, create and copy have succeeded and the removal fails,
`moveFile` reports the removal error and changes nothing further; and
whenever it reports that error the file is at both paths. -/
theorem moveFile_never_loses (cwd : Key) (f : Faults) (fs : FS) (sp : CleanPath)
    (dst : Option CleanPath) (n : Node) (hn : fsGet fs (resolve cwd sp) = some n) :
    (fsGet (moveFile cwd f fs (some sp) dst).2 (resolve cwd sp) = some n ∨
      ∃ dp, dst = some dp ∧ fsGet (moveFile cwd f fs (some sp) dst).2 (resolve cwd dp) = some n) ∧
    (fsGet (moveFile cwd f fs (some sp) dst).2 (resolve cwd sp) ≠ some n →
      (moveFile cwd f fs (some sp) dst).1 = none ∧
      ∃ dp, dst = some dp ∧ fsGet (moveFile cwd f fs (some sp) dst).2 (resolve cwd dp) = some n) ∧
    (∀ fs1 fs2, Rename cwd f.renameFails fs (some sp) dst = none →
      Open cwd f.openFails fs (some sp) = true →
      Create cwd f.createFails fs dst = some fs1 →
      Copy cwd f.copyStops fs1 (some sp) dst = (true, fs2) →
      Remove cwd f.removeFails fs2 (some sp) = none →
      moveFile cwd f fs (some sp) dst = (some .removeSource, fs2)) ∧
    ((moveFile cwd f fs (some sp) dst).1 = some .removeSource →
      fsGet (moveFile cwd f fs (some sp) dst).2 (resolve cwd sp) = some n ∧
      ∃ dp, dst = some dp ∧ fsGet (moveFile cwd f fs (some sp) dst).2 (resolve cwd dp) = some n) := by
  have hstep : ∀ fs1 fs2, Rename cwd f.renameFails fs (some sp) dst = none →
      Open cwd f.openFails fs (some sp) = true →
      Create cwd f.createFails fs dst = some fs1 →
      Copy cwd f.copyStops fs1 (some sp) dst = (true, fs2) →
      Remove cwd f.removeFails fs2 (some sp) = none →
      moveFile cwd f fs (some sp) dst = (some .removeSource, fs2) := by
    intro fs1 fs2 hr ho hc hcp hrm
    unfold moveFile
    rw [hr]
    simp only [ho, Bool.true_eq_false, if_false]
    rw [hc]
    simp only
    rw [hcp]
    simp only
    rw [hrm]
  by_cases hne : ∀ dp, dst = some dp → resolve cwd sp ≠ resolve cwd dp
  · obtain ⟨h1, h2, h3⟩ := moveFile_outcomes cwd f fs sp dst n hn hne
    cases he : (moveFile cwd f fs (some sp) dst).1 with
    | none =>
      have := h1 he
      exact ⟨Or.inr this.1, fun _ => ⟨rfl, this.1⟩, hstep, fun h => (by cases h)⟩
    | some e =>
      by_cases hr : e = .removeSource
      · subst hr
        have := h2 he
        exact ⟨Or.inl this.2, fun h => absurd this.2 h, hstep, fun _ => ⟨this.2, this.1⟩⟩
      · have := h3 e he hr
        exact ⟨Or.inl this, fun h => absurd this h, hstep,
          fun h => absurd (Option.some.inj h) hr⟩
  · simp only [ne_eq, not_forall, not_not] at hne
    obtain ⟨dp, hdp, e⟩ := hne
    subst hdp
    obtain ⟨h1, h2, _⟩ := moveFile_same_location cwd f fs sp dp n hn e
    rw [h1]
    exact ⟨Or.inl hn, fun h => absurd hn h, hstep, fun h => absurd h h2⟩

theorem moveFile_never_loses_witness :
    fsGet sampleFS (resolve sampleCwd (Clean "src/photo.jpg".toList)) = some (.file [1, 2, 3]) ∧
    moveFile sampleCwd ⟨none, true, false, false, none, true⟩ sampleFS
        (some (Clean "src/photo.jpg".toList)) (Join "out/frontal".toList "copy.jpg".toList)
      = (some .removeSource,
          fsPut (fsPut sampleFS (key ["w", "out", "frontal", "copy.jpg"]) (.file []))
            (key ["w", "out", "frontal", "copy.jpg"]) (.file [1, 2, 3])) ∧
    (fsGet (moveFile sampleCwd ⟨none, true, false, false, none, true⟩ sampleFS
        (some (Clean "src/photo.jpg".toList))
        (Join "out/frontal".toList "copy.jpg".toList)).2
        (resolve sampleCwd (Clean "src/photo.jpg".toList)) = some (.file [1, 2, 3]) ∧
      ∃ dp, Join "out/frontal".toList "copy.jpg".toList = some dp ∧
        fsGet (moveFile sampleCwd ⟨none, true, false, false, none, true⟩ sampleFS
          (some (Clean "src/photo.jpg".toList))
          (Join "out/frontal".toList "copy.jpg".toList)).2 (resolve sampleCwd dp)
          = some (.file [1, 2, 3])) ∧
    (moveFile sampleCwd crossDevice sampleFS (some (Clean "src/photo.jpg".toList))
        (Join "out/frontal".toList "copy.jpg".toList)).1 = none ∧
    fsGet (moveFile sampleCwd crossDevice sampleFS (some (Clean "src/photo.jpg".toList))
        (Join "out/frontal".toList "copy.jpg".toList)).2 (key ["w", "src", "photo.jpg"]) = none ∧
    fsGet (moveFile sampleCwd crossDevice sampleFS (some (Clean "src/photo.jpg".toList))
        (Join "out/frontal".toList "copy.jpg".toList)).2
        (key ["w", "out", "frontal", "copy.jpg"]) = some (.file [1, 2, 3]) ∧
    moveFile sampleCwd crossDevice sampleFS (Join "src".toList "photo.jpg".toList)
        (Join "src".toList "photo.jpg".toList) = (none, sampleFS) :=
  ⟨by decide, by decide,
    (moveFile_never_loses sampleCwd ⟨none, true, false, false, none, true⟩ sampleFS
      (Clean "src/photo.jpg".toList) (Join "out/frontal".toList "copy.jpg".toList)
      (.file [1, 2, 3]) (by decide)).2.2.2 (by decide),
    by decide, by decide, by decide, by decide⟩

/-! ## Move, then undo (C3) -/

/-- C3, at a failing input: source and category lie on different devices,
so every rename between them is refused. The move succeeds through the copy
fallback of `moveFile` (which its comment calls cross-filesystem support);
`undoImage` with the recorded paths only renames, the rename is refused
again, the reply is 500 and the file stays at the target path, where the
claim has a successful undo and the file back at its original path. -/
theorem undoImage_after_copied_move_fails :
    (moveImage sampleConfig sampleCwd crossDevice sampleFS ⟨"photo.jpg", "side"⟩).map (·.1)
      = some ⟨200, true, "File moved to Side"⟩ ∧
    (movePlan sampleConfig sampleCwd crossDevice sampleFS
      ⟨"photo.jpg", "side"⟩).finalTargetPath.map render = some "out/side/photo.jpg" ∧
    (moveImage sampleConfig sampleCwd crossDevice sampleFS ⟨"photo.jpg", "side"⟩).map
      (fun out => (undoImage sampleCwd true out.2
        ⟨"photo.jpg", "src/photo.jpg", "out/side/photo.jpg"⟩).1)
      = some ⟨500, false, "Failed to undo move: "⟩ ∧
    (moveImage sampleConfig sampleCwd crossDevice sampleFS ⟨"photo.jpg", "side"⟩).map
      (fun out => fsGet (undoImage sampleCwd true out.2
        ⟨"photo.jpg", "src/photo.jpg", "out/side/photo.jpg"⟩).2 (key ["w", "src", "photo.jpg"]))
      = some none := by
  decide

/-! ## Paths of plain names -/

theorem splitSlash_plain (n : Str) (h : '/' ∉ n) : splitSlash n = [n] := by
  induction n with
  | nil => rfl
  | cons c cs ih =>
    simp only [List.mem_cons, not_or] at h
    have hc : ¬ c = '/' := fun e => h.1 e.symm
    simp only [splitSlash, hc, if_false, ih h.2]

theorem cleanStep_plain (d : CleanPath) (n : Str) (h : PlainName n) :
    cleanStep d n = child d n := by
  obtain ⟨_, h1, h2, h3⟩ := h
  simp only [cleanStep, h1, h2, h3, or_self, if_false, child]

theorem JoinClean_plain (d : CleanPath) (n : Str) (h : PlainName n) :
    JoinClean d n = child d n := by
  simp only [JoinClean, splitSlash_plain n h.1, List.foldl_cons, List.foldl_nil,
    cleanStep_plain d n h]

theorem Join_plain (a n : Str) (h : PlainName n) :
    Join a n = some (child (if a = [] then dot else Clean a) n) := by
  unfold Join
  by_cases ha : a = []
  · have hn : ¬ n = [] := h.2.1
    have hhead : ¬ n.head? = some '/' := by
      intro e
      cases n with
      | nil => cases e
      | cons c cs =>
        simp only [List.head?_cons, Option.some.injEq] at e
        exact h.1 (e ▸ List.mem_cons_self _ _)
    simp only [ha, if_true, hn, if_false, Clean, splitSlash_plain n h.1, List.foldl_cons,
      List.foldl_nil, hhead, decide_False, cleanStep_plain _ n h, dot]
  · simp only [ha, if_false, splitSlash_plain n h.1, List.foldl_cons, List.foldl_nil,
      cleanStep_plain _ n h]

theorem Dir_child (d : CleanPath) (n : Seg) : Dir (some (child d n)) = d := by
  cases d with
  | mk rooted ups comps =>
    simp only [Dir, child]
    cases hc : comps ++ [n] with
    | nil => simp at hc
    | cons x xs =>
      simp only [CleanPath.mk.injEq, true_and]
      rw [← hc, List.dropLast_concat]

theorem resolve_child (cwd : Key) (d : CleanPath) (n : Seg) :
    resolve cwd (child d n) = resolve cwd d ++ [n] := by
  unfold resolve child
  split
  · rfl
  · simp only [List.append_assoc]

theorem mem_Ext (s : Str) (c : Char) (h : c ∈ Ext s) : c ∈ s := by
  induction s with
  | nil => simp [Ext] at h
  | cons x xs ih =>
    unfold Ext at h
    split at h
    · exact List.mem_cons_of_mem _ (ih h)
    · split at h
      · exact List.mem_cons_of_mem _ (ih h)
      · split at h
        · exact h
        · cases h

theorem mem_TrimSuffix (s x : Str) (c : Char) (h : c ∈ TrimSuffix s x) : c ∈ s := by
  unfold TrimSuffix at h
  split at h
  · exact List.mem_of_mem_take h
  · exact h

theorem digitChar_ne_slash (d : Nat) (h : d < 10) : Nat.digitChar d ≠ '/' := by
  interval_cases d <;> decide

theorem toDigitsCore_no_slash (fuel n : Nat) (acc : List Char) (hacc : '/' ∉ acc) :
    '/' ∉ Nat.toDigitsCore 10 fuel n acc := by
  induction fuel generalizing n acc with
  | zero => simpa [Nat.toDigitsCore] using hacc
  | succ fuel ih =>
    unfold Nat.toDigitsCore
    have hacc1 : '/' ∉ Nat.digitChar (n % 10) :: acc := by
      simp only [List.mem_cons, not_or]
      exact ⟨fun e => digitChar_ne_slash _ (Nat.mod_lt _ (by decide)) e.symm, hacc⟩
    simp only
    split
    · exact hacc1
    · exact ih _ _ hacc1

theorem itoa_no_slash (n : Nat) : '/' ∉ itoa n :=
  toDigitsCore_no_slash _ _ [] (List.not_mem_nil _)

/-- The suffixed name of a separator-free file name is a plain name. -/
theorem conflictName_plain (filename : Str) (k : Nat) (h : '/' ∉ filename) :
    PlainName (conflictName (TrimSuffix filename (Ext filename)) k (Ext filename)) := by
  have hmem : '_' ∈ conflictName (TrimSuffix filename (Ext filename)) k (Ext filename) := by
    simp [conflictName]
  refine ⟨?_, ?_, ?_, ?_⟩
  · intro hs
    unfold conflictName at hs
    rcases List.mem_append.1 hs with h1 | h1
    · rcases List.mem_append.1 h1 with h2 | h2
      · exact h (mem_TrimSuffix _ _ _ h2)
      · rcases List.mem_cons.1 h2 with h3 | h3
        · exact absurd h3 (by decide)
        · exact itoa_no_slash k h3
    · exact h (mem_Ext _ _ h1)
  · intro e; rw [e] at hmem; exact absurd hmem (by decide)
  · intro e; rw [e] at hmem; exact absurd hmem (by decide)
  · intro e; rw [e] at hmem; exact absurd hmem (by decide)


/-! ## The collision rule (C2) -/

/-- The renaming loop, started with enough rounds, is the search for the
first counter up to 1000 whose name `os.Stat` reports as not existing. -/
theorem probe_eq_find (cwd : Key) (fs : FS) (targetDir : CleanPath) (name ext : Str)
    (fuel counter : Nat) (hsum : counter + fuel = 1001) (hfuel : 1 ≤ fuel) :
    probe cwd fs targetDir name ext fuel counter =
      match (List.range' counter fuel).find? (fun k =>
        decide (Stat cwd fs (some (JoinClean targetDir (conflictName name k ext))) = .notExist)) with
      | some k => .found (JoinClean targetDir (conflictName name k ext))
      | none => .tooMany := by
  induction fuel generalizing counter with
  | zero => omega
  | succ fuel ih =>
    unfold probe
    simp only [List.range', List.find?_cons]
    by_cases h1 : Stat cwd fs (some (JoinClean targetDir (conflictName name counter ext)))
        = .notExist
    · simp only [h1, if_true, decide_True]
    · simp only [h1, if_false, decide_False]
      by_cases h2 : counter + 1 > 1000
      · have hf : fuel = 0 := by omega
        subst hf
        simp only [h2, if_true, List.range', List.find?_nil]
      · rw [if_neg h2]
        exact ih (counter + 1) (by omega) (by omega)

theorem contains_eq_false {l : Str} {c : Char} (h : c ∉ l) : l.contains c = false := by
  cases hc : l.contains c with
  | false => rfl
  | true => exact absurd (List.mem_of_elem_eq_true hc) h

theorem contains_eq_true {l : Str} {c : Char} (h : c ∈ l) : l.contains c = true :=
  List.elem_eq_true_of_mem h

/-- For a name without separator, the split of the specification is the
one `filepath.Ext` makes: the extension is `Ext`, it is empty exactly for a
name without a dot, and base name and extension make up the name. -/
theorem splitExt_spec (f : Str) (h : '/' ∉ f) :
    Ext f = (splitExt f).2 ∧ f = (splitExt f).1 ++ (splitExt f).2 ∧
    ((splitExt f).2 = [] ↔ '.' ∉ f) := by
  induction f with
  | nil => simp [Ext, splitExt]
  | cons c cs ih =>
    simp only [List.mem_cons, not_or] at h
    obtain ⟨ih1, ih2, ih3⟩ := ih h.2
    cases hsp : splitExt cs with
    | mk base ext =>
      rw [hsp] at ih1 ih2 ih3
      simp only at ih1 ih2 ih3
      cases ext with
      | nil =>
        have hnd : '.' ∉ cs := ih3.1 rfl
        by_cases hc : c = '.'
        · simp only [Ext, splitExt, hsp, contains_eq_false h.2, contains_eq_false hnd, hc,
            if_true, Bool.false_eq_true, if_false, List.nil_append, List.mem_cons, true_or,
            not_true_eq_false, iff_false, ne_eq, reduceCtorEq, not_false_eq_true, and_self]
        · have hc2 : ¬ '.' = c := fun e => hc e.symm
          simp only [Ext, splitExt, hsp, contains_eq_false h.2, contains_eq_false hnd, hc,
            if_false, Bool.false_eq_true, List.append_nil, List.mem_cons, hc2, hnd, or_self,
            not_false_eq_true, true_and, iff_true]
          rw [List.append_nil] at ih2
          rw [← ih2]
          exact ⟨rfl, trivial⟩
      | cons e ext1 =>
        have hd : '.' ∈ cs := by
          by_contra hnd
          have := ih3.2 hnd
          cases this
        simp only [Ext, splitExt, hsp, contains_eq_false h.2, contains_eq_true hd, if_true,
          Bool.false_eq_true, if_false, ih1, List.cons_append, ← ih2, List.mem_cons, hd, or_true,
          not_true_eq_false, iff_false, ne_eq, reduceCtorEq, not_false_eq_true, and_self]

theorem TrimSuffix_append (base ext : Str) : TrimSuffix (base ++ ext) ext = base := by
  unfold TrimSuffix
  have hs : ext.isSuffixOf (base ++ ext) = true :=
    List.isSuffixOf_iff_suffix.2 (List.suffix_append base ext)
  simp only [hs, if_true, List.length_append, Nat.add_sub_cancel, List.take_left']

/-- For a name without separator the suffixed name `moveImage` builds is
the alternative name of the specification. -/
theorem conflictName_eq_altName (f : Str) (k : Nat) (h : '/' ∉ f) :
    conflictName (TrimSuffix f (Ext f)) k (Ext f) = altName f k := by
  obtain ⟨h1, h2, _⟩ := splitExt_spec f h
  have ht : TrimSuffix f (Ext f) = (splitExt f).1 := by
    rw [h1]
    conv => lhs; arg 1; rw [h2]
    exact TrimSuffix_append _ _
  rw [ht, h1]
  simp only [conflictName, altName, decimal, itoa, Nat.repr, List.asString,
    List.append_assoc, List.singleton_append, String.toList]

/-- The collision step of `movePlan` for a plain file name, once the
category is found, the source is not reported missing and the category
directory has been made: it is the collision rule of the specification
over what `os.Stat` finds and what it reports missing. -/
theorem movePlan_plain (cfg : Config) (cwd : Key) (f : Faults) (fs fs1 : FS)
    (req : MoveRequest) (cat : Category) (hplain : PlainName req.Filename.toList)
    (hcat : findCategory cfg.Categories req.CategoryID = some cat)
    (hsrc : Stat cwd fs (Join cfg.SourceDir.toList req.Filename.toList) ≠ .notExist)
    (hmk : MkdirAll cwd f.mkdirBudget fs (categoryDir cat) = (true, fs1)) :
    movePlan cfg cwd f fs req =
      match resolveSpec (statFinds cwd fs1) (statMissing cwd fs1) (categoryDir cat)
        req.Filename.toList with
      | some p => .move cat fs1 (Join cfg.SourceDir.toList req.Filename.toList) (some p)
      | none => .reply ⟨500, false, "Too many conflicting files"⟩ fs1 := by
  have hT : Join cat.Path.toList req.Filename.toList
      = some (child (categoryDir cat) req.Filename.toList) := Join_plain _ _ hplain
  unfold movePlan
  rw [hcat]
  simp only
  rw [if_neg hsrc, hT, Dir_child, hmk]
  simp only
  unfold resolveSpec
  cases hst : Stat cwd fs1 (some (child (categoryDir cat) req.Filename.toList)) with
  | notExist => simp only [statFinds, hst, Bool.false_eq_true, if_false]
  | otherErr => simp only [statFinds, hst, Bool.false_eq_true, if_false]
  | ok n =>
    simp only [statFinds, hst, if_true]
    rw [probe_eq_find _ _ _ _ _ 1000 1 (by omega) (by omega)]
    have hpred : (fun k => decide (Stat cwd fs1 (some (JoinClean (categoryDir cat)
          (conflictName (TrimSuffix req.Filename.toList (Ext req.Filename.toList)) k
            (Ext req.Filename.toList)))) = .notExist))
        = (fun k => statMissing cwd fs1
            (child (categoryDir cat) (altName req.Filename.toList k))) := by
      funext k
      rw [JoinClean_plain _ _ (conflictName_plain _ k hplain.1),
        conflictName_eq_altName _ k hplain.1]
      rfl
    rw [hpred]
    have hname : ∀ k, JoinClean (categoryDir cat)
          (conflictName (TrimSuffix req.Filename.toList (Ext req.Filename.toList)) k
            (Ext req.Filename.toList))
        = child (categoryDir cat) (altName req.Filename.toList k) := by
      intro k
      rw [JoinClean_plain _ _ (conflictName_plain _ k hplain.1),
        conflictName_eq_altName _ k hplain.1]
    cases List.find? (fun k => statMissing cwd fs1
        (child (categoryDir cat) (altName req.Filename.toList k))) (List.range' 1 1000) with
    | none => rfl
    | some k => simp only [Option.map_some', hname]

/-- The first hit of a search through `s, s+1, ...` is the least one. -/
theorem find_range_least (p : Nat → Bool) (s n k : Nat)
    (h : (List.range' s n).find? p = some k) :
    p k = true ∧ s ≤ k ∧ k < s + n ∧ ∀ j, s ≤ j → j < k → p j = false := by
  induction n generalizing s with
  | zero => simp [List.range'] at h
  | succ n ih =>
    simp only [List.range', List.find?_cons] at h
    cases hp : p s with
    | true =>
      rw [hp] at h
      simp only [Option.some.injEq] at h
      subst h
      exact ⟨hp, le_refl _, by omega, fun j h1 h2 => by omega⟩
    | false =>
      rw [hp] at h
      obtain ⟨h1, h2, h3, h4⟩ := ih (s + 1) h
      refine ⟨h1, by omega, by omega, fun j hj1 hj2 => ?_⟩
      by_cases hjs : j = s
      · rw [hjs]; exact hp
      · exact h4 j (by omega) hj2

set_option maxRecDepth 100000 in
/-- A name of 256 bytes is too long: `os.Stat` answers with an error that is
not "not exist", so the renaming loop passes over it as if it were taken;
a name of 255 bytes that is not there is reported as not existing. -/
theorem Stat_long_name :
    Stat sampleCwd sampleFS (some (child (Clean "out/frontal".toList) (List.replicate 256 'a')))
      = .otherErr ∧
    Stat sampleCwd sampleFS (some (child (Clean "out/frontal".toList) (List.replicate 255 'a')))
      = .notExist := by
  decide

/-- C2, as stated, fails for file names that are not plain. For
`sub/photo.jpg` with `out/frontal/sub/photo.jpg` taken, `moveImage` picks
`out/frontal/sub/sub/photo_1.jpg`; over the category directory
`out/frontal` the claim has `out/frontal/sub/photo_1.jpg`, which is free,
and over the directory `out/frontal/sub` of the first target it has
`out/frontal/sub/sub/photo.jpg`, which is free too. For the empty file
name, which names the source directory itself, `moveImage` picks `out/_1`
where the claim over the category directory has `out/frontal/_1`, and picks
the missing category directory `out/frontal` itself where the claim over
`out` has `out/_1`. -/
theorem moveImage_collision_not_plain :
    (movePlan sampleConfig sampleCwd noFaults nestedFS
      ⟨"sub/photo.jpg", "frontal"⟩).finalTargetPath.map render
      = some "out/frontal/sub/sub/photo_1.jpg" ∧
    String.mk (altName "sub/photo.jpg".toList 1) = "sub/photo_1.jpg" ∧
    Stat sampleCwd nestedFS (some (Clean "out/frontal/sub/photo.jpg".toList)) = .ok (.file [9]) ∧
    Stat sampleCwd nestedFS (some (Clean "out/frontal/sub/photo_1.jpg".toList)) = .notExist ∧
    Stat sampleCwd nestedFS (some (Clean "out/frontal/sub/sub/photo.jpg".toList)) = .notExist ∧
    (movePlan sampleConfig sampleCwd noFaults sampleFS ⟨"", "frontal"⟩).finalTargetPath.map render
      = some "out/_1" ∧
    String.mk (altName [] 1) = "_1" ∧
    Stat sampleCwd sampleFS (some (Clean "out/frontal".toList)) = .ok .dir ∧
    Stat sampleCwd sampleFS (some (Clean "out/frontal/_1".toList)) = .notExist ∧
    (movePlan sampleConfig sampleCwd noFaults bareFS ⟨"", "frontal"⟩).finalTargetPath.map render
      = some "out/frontal" ∧
    Stat sampleCwd bareFS (some (Clean "out".toList)) = .ok .dir ∧
    Stat sampleCwd bareFS (some (Clean "out/_1".toList)) = .notExist := by
  decide

/-- C2, amended: for every plain file name (not empty, no separator, not
`.` or `..`), once the category is found, the source is not reported
missing and the category directory `targetDir` has been made, the first
target path of `moveImage` is `targetDir/filename`, and `moveImage`
resolves collisions as the reference does over the answers of `os.Stat`:
`targetDir/filename` unless `os.Stat` finds it; otherwise
`targetDir/name_k ext` for the least `k` from 1 to 1000 that `os.Stat`
reports as not existing; and it fails with "Too many conflicting files",
within its 1000 probes and without calling `moveFile`, exactly when
`os.Stat` finds `targetDir/filename` and reports none of `name_1 ext` to
`name_1000 ext` as not existing. -/
theorem moveImage_collision_rule (cfg : Config) (cwd : Key) (f : Faults) (fs fs1 : FS)
    (req : MoveRequest) (cat : Category) (hplain : PlainName req.Filename.toList)
    (hcat : findCategory cfg.Categories req.CategoryID = some cat)
    (hsrc : Stat cwd fs (Join cfg.SourceDir.toList req.Filename.toList) ≠ .notExist)
    (hmk : MkdirAll cwd f.mkdirBudget fs (categoryDir cat) = (true, fs1)) :
    Join cat.Path.toList req.Filename.toList
      = some (child (categoryDir cat) req.Filename.toList) ∧
    movePlan cfg cwd f fs req =
      (match resolveSpec (statFinds cwd fs1) (statMissing cwd fs1) (categoryDir cat)
        req.Filename.toList with
      | some p => .move cat fs1 (Join cfg.SourceDir.toList req.Filename.toList) (some p)
      | none => .reply ⟨500, false, "Too many conflicting files"⟩ fs1) ∧
    (∀ p, resolveSpec (statFinds cwd fs1) (statMissing cwd fs1) (categoryDir cat)
        req.Filename.toList = some p →
      (statFinds cwd fs1 (child (categoryDir cat) req.Filename.toList) = false ∧
        p = child (categoryDir cat) req.Filename.toList) ∨
      (statFinds cwd fs1 (child (categoryDir cat) req.Filename.toList) = true ∧
        ∃ k, 1 ≤ k ∧ k ≤ 1000 ∧
          p = child (categoryDir cat) (altName req.Filename.toList k) ∧
          statMissing cwd fs1 p = true ∧
          ∀ j, 1 ≤ j → j < k →
            statMissing cwd fs1 (child (categoryDir cat) (altName req.Filename.toList j))
              = false)) ∧
    ((moveImage cfg cwd f fs req = some (⟨500, false, "Too many conflicting files"⟩, fs1) ∧
        (movePlan cfg cwd f fs req).finalTargetPath = none) ↔
      (statFinds cwd fs1 (child (categoryDir cat) req.Filename.toList) = true ∧
        ∀ k, 1 ≤ k → k ≤ 1000 →
          statMissing cwd fs1 (child (categoryDir cat) (altName req.Filename.toList k))
            = false)) := by
  have hplan := movePlan_plain cfg cwd f fs fs1 req cat hplain hcat hsrc hmk
  refine ⟨Join_plain _ _ hplain, hplan, ?_, ?_⟩
  · intro p hp
    unfold resolveSpec at hp
    cases hfound : statFinds cwd fs1 (child (categoryDir cat) req.Filename.toList) with
    | false =>
      rw [hfound] at hp
      simp only [Bool.false_eq_true, if_false, Option.some.injEq] at hp
      exact Or.inl ⟨rfl, hp.symm⟩
    | true =>
      rw [hfound] at hp
      simp only [if_true, Option.map_eq_some'] at hp
      obtain ⟨k, hk, hpk⟩ := hp
      obtain ⟨h1, h2, h3, h4⟩ := find_range_least _ 1 1000 k hk
      subst hpk
      exact Or.inr ⟨rfl, k, h2, by omega, rfl, h1, h4⟩
  · rw [moveImage, hplan]
    unfold resolveSpec
    cases hfound : statFinds cwd fs1 (child (categoryDir cat) req.Filename.toList) with
    | false =>
      simp only [Bool.false_eq_true, if_false, Plan.finalTargetPath, reduceCtorEq, and_false,
        false_and]
    | true =>
      simp only [if_true, true_and]
      cases hfind : (List.range' 1 1000).find?
          (fun k => statMissing cwd fs1
            (child (categoryDir cat) (altName req.Filename.toList k))) with
      | none =>
        simp only [Option.map_none', Plan.finalTargetPath, and_self, true_iff]
        intro k hk1 hk2
        have := List.find?_eq_none.1 hfind k (List.mem_range'_1.2 ⟨hk1, by omega⟩)
        simpa using this
      | some k =>
        simp only [Option.map_some', Plan.finalTargetPath, reduceCtorEq, and_false, false_iff,
          not_forall]
        obtain ⟨h1, h2, h3, _⟩ := find_range_least _ 1 1000 k hfind
        exact ⟨k, h2, by omega, by simpa using h1⟩

theorem moveImage_collision_rule_witness :
    PlainName "photo.jpg".toList ∧
    String.mk (altName "photo.jpg".toList 1) = "photo_1.jpg" ∧
    (resolveSpec (statFinds sampleCwd sampleFS) (statMissing sampleCwd sampleFS)
      (categoryDir ⟨"frontal", "Frontal", "out/frontal", "1"⟩) "photo.jpg".toList).map render
      = some "out/frontal/photo_1.jpg" ∧
    movePlan sampleConfig sampleCwd noFaults sampleFS ⟨"photo.jpg", "frontal"⟩ =
      (match resolveSpec (statFinds sampleCwd sampleFS) (statMissing sampleCwd sampleFS)
        (categoryDir ⟨"frontal", "Frontal", "out/frontal", "1"⟩) "photo.jpg".toList with
      | some p => .move ⟨"frontal", "Frontal", "out/frontal", "1"⟩ sampleFS
          (Join "src".toList "photo.jpg".toList) (some p)
      | none => .reply ⟨500, false, "Too many conflicting files"⟩ sampleFS) :=
  ⟨by decide, by decide, by decide,
    (moveImage_collision_rule sampleConfig sampleCwd noFaults sampleFS sampleFS
      ⟨"photo.jpg", "frontal"⟩ ⟨"frontal", "Frontal", "out/frontal", "1"⟩ (by decide) (by decide)
      (by decide) (by decide)).2.1⟩

/-! ## Scanning (C6) -/

theorem isImageExt_eq (ext : Str) :
    isImageExt (ToLower ext) = imageExts.any (eqFold ext) := by
  have h1 : (".jpg".toList).map Char.toLower = ".jpg".toList := by decide
  have h2 : (".jpeg".toList).map Char.toLower = ".jpeg".toList := by decide
  have h3 : (".png".toList).map Char.toLower = ".png".toList := by decide
  have h4 : (".webp".toList).map Char.toLower = ".webp".toList := by decide
  simp only [isImageExt, imageExts, List.any_cons, List.any_nil, eqFold, ToLower, h1, h2, h3, h4,
    Bool.or_false, Bool.or_assoc]

theorem scanLoop_eq (files : List DirEntry) (images : List String) :
    scanLoop files images = images ++
      (files.filter (fun e => !e.isDir && imageExts.any (eqFold (Ext e.name.toList)))).map
        (fun e => e.name) := by
  induction files generalizing images with
  | nil => simp [scanLoop]
  | cons file rest ih =>
    cases hd : file.isDir with
    | true =>
      rw [scanLoop, List.filter_cons]
      simp only [hd, Bool.not_true, Bool.false_and, if_false, Bool.false_eq_true]
      exact ih images
    | false =>
      cases he : imageExts.any (eqFold (Ext file.name.toList)) with
      | true =>
        rw [scanLoop, List.filter_cons, isImageExt_eq]
        simp only [hd, he, Bool.not_false, Bool.and_self, if_true, List.map_cons]
        rw [ih, List.append_assoc]
        rfl
      | false =>
        rw [scanLoop, List.filter_cons, isImageExt_eq]
        simp only [hd, he, Bool.not_false, Bool.and_false, if_false, Bool.false_eq_true]
        exact ih images

/-- C6: `scanImageFiles` equals the reference scanner on every outcome of
reading the directory: empty and no error when the directory does not
exist, otherwise the names of the non-directory entries with a recognised
extension (case-insensitively), in enumeration order; `a.png` and `B.JPG`
are kept, `b.txt` and a subdirectory `x.png` are dropped. -/
theorem scanImageFiles_eq_scanSpec :
    (∀ read : ReadDirResult, scanImageFiles read = scanSpec read) ∧
    scanImageFiles .notExist = some [] ∧
    scanImageFiles (.entries [⟨"a.png", false⟩, ⟨"b.txt", false⟩, ⟨"B.JPG", false⟩,
      ⟨"x.png", true⟩]) = some ["a.png", "B.JPG"] := by
  refine ⟨?_, rfl, by decide⟩
  intro read
  cases read with
  | notExist => rfl
  | otherErr => rfl
  | entries files => simp [scanImageFiles, scanSpec, scanLoop_eq]

/-! ## Configuration (C8) -/

/-- C8: after `updateConfig` with configuration `c`, from any prior state
and whether or not the configuration file could be written, `getConfig`
returns exactly `c` (source directory, categories in order, skip
shortcut), and `updateConfig` replies 200. -/
theorem getConfig_updateConfig (cwd : Key) (persistOk : Bool) (budgets : List (Option Nat))
    (st : AppState) (c : Config) :
    getConfig (updateConfig cwd persistOk budgets st c).2 = some c ∧
    (updateConfig cwd persistOk budgets st c).1.status = 200 := by
  cases persistOk <;> simp [updateConfig, getConfig]

/-! ## The reply of a successful move (C7) -/

/-- C7, as stated, fails: moving `photo.jpg` into a category that already
holds a `photo.jpg` puts the file at `out/frontal/photo_1.jpg`, moving it
into the same category when it is free puts it at `out/frontal/photo.jpg`,
and the caller gets the same reply both times, which names the category
and no path. -/
theorem moveImage_reply_without_path :
    (moveImage sampleConfig sampleCwd noFaults sampleFS ⟨"photo.jpg", "frontal"⟩).map (·.1)
      = some ⟨200, true, "File moved to Frontal"⟩ ∧
    (movePlan sampleConfig sampleCwd noFaults sampleFS ⟨"photo.jpg", "frontal"⟩).finalTargetPath.map
      render = some "out/frontal/photo_1.jpg" ∧
    (moveImage sampleConfig sampleCwd noFaults sampleFreeFS ⟨"photo.jpg", "frontal"⟩).map (·.1)
      = some ⟨200, true, "File moved to Frontal"⟩ ∧
    (movePlan sampleConfig sampleCwd noFaults sampleFreeFS
      ⟨"photo.jpg", "frontal"⟩).finalTargetPath.map render = some "out/frontal/photo.jpg" := by
  decide

/-- C7, amended: whenever `moveImage` replies with success, it has moved
the file to the final target path with `moveFile`, and the reply is status
200 with the message `File moved to` followed by the name of the requested
category; the reply depends on the category alone. -/
theorem moveImage_success_reply (cfg : Config) (cwd : Key) (f : Faults) (fs fs2 : FS)
    (req : MoveRequest) (r : Reply) (h : moveImage cfg cwd f fs req = some (r, fs2))
    (hs : r.Success = true) :
    ∃ cat fs1 src p, findCategory cfg.Categories req.CategoryID = some cat ∧
      movePlan cfg cwd f fs req = .move cat fs1 src p ∧
      moveFile cwd f fs1 src p = (none, fs2) ∧
      r = ⟨200, true, "File moved to " ++ cat.Name⟩ :=
  moveImage_success_inv cfg cwd f fs fs2 req r h hs

theorem moveImage_success_reply_witness :
    moveImage sampleConfig sampleCwd noFaults sampleFS ⟨"photo.jpg", "frontal"⟩
      = some (⟨200, true, "File moved to Frontal"⟩, sampleMovedFS) ∧
    ∃ cat fs1 src p, findCategory sampleConfig.Categories "frontal" = some cat ∧
      movePlan sampleConfig sampleCwd noFaults sampleFS ⟨"photo.jpg", "frontal"⟩
        = .move cat fs1 src p ∧
      moveFile sampleCwd noFaults fs1 src p = (none, sampleMovedFS) ∧
      (⟨200, true, "File moved to Frontal"⟩ : Reply) = ⟨200, true, "File moved to " ++ cat.Name⟩ :=
  ⟨by decide, moveImage_success_reply sampleConfig sampleCwd noFaults sampleFS sampleMovedFS
    ⟨"photo.jpg", "frontal"⟩ ⟨200, true, "File moved to Frontal"⟩ (by decide) (by decide)⟩

/-! ## A missing source (C5) -/

/-- C5, as stated, fails: the request names `photo.jpg/x`, which does not
exist because `photo.jpg` is a regular file. `os.Stat` fails with an error
other than "not exist", so `moveImage` goes on: it creates the directory
`out/side/photo.jpg` and replies 500, where the claim has 404 and an
unchanged file system. -/
theorem moveImage_source_below_file :
    findCategory sampleConfig.Categories "side" ≠ none ∧
    fsGet sampleFS (key ["w", "src", "photo.jpg", "x"]) = none ∧
    (Join "src".toList "photo.jpg/x".toList).map (resolve sampleCwd)
      = some (key ["w", "src", "photo.jpg", "x"]) ∧
    Stat sampleCwd sampleFS (Join "src".toList "photo.jpg/x".toList) = .otherErr ∧
    (moveImage sampleConfig sampleCwd noFaults sampleFS ⟨"photo.jpg/x", "side"⟩).map (·.1)
      = some ⟨500, false, "Failed to move file: failed to open source file: "⟩ ∧
    fsGet sampleFS (key ["w", "out", "side", "photo.jpg"]) = none ∧
    (moveImage sampleConfig sampleCwd noFaults sampleFS ⟨"photo.jpg/x", "side"⟩).map
      (fun out => fsGet out.2 (key ["w", "out", "side", "photo.jpg"])) = some (some .dir) := by
  decide

/-- C5, amended: for every move request whose category id is known and for
whose source path `os.Stat` reports that it does not exist, `moveImage`
replies 404 with "Source file not found" and leaves the file system exactly
as it was. -/
theorem moveImage_source_not_found (cfg : Config) (cwd : Key) (f : Faults) (fs : FS)
    (req : MoveRequest) (cat : Category)
    (hcat : findCategory cfg.Categories req.CategoryID = some cat)
    (hstat : Stat cwd fs (Join cfg.SourceDir.toList req.Filename.toList) = .notExist) :
    moveImage cfg cwd f fs req = some (⟨404, false, "Source file not found"⟩, fs) := by
  unfold moveImage movePlan
  rw [hcat]
  simp only
  rw [if_pos hstat]

theorem moveImage_source_not_found_witness :
    findCategory sampleConfig.Categories "side"
      = some ⟨"side", "Side", "out/side", "2"⟩ ∧
    Stat sampleCwd sampleFS (Join "src".toList "missing.jpg".toList) = .notExist ∧
    moveImage sampleConfig sampleCwd crossDevice sampleFS ⟨"missing.jpg", "side"⟩
      = some (⟨404, false, "Source file not found"⟩, sampleFS) :=
  ⟨by decide, by decide,
    moveImage_source_not_found sampleConfig sampleCwd crossDevice sampleFS ⟨"missing.jpg", "side"⟩
      ⟨"side", "Side", "out/side", "2"⟩ (by decide) (by decide)⟩

/-! ## The failures of undo (C4) -/

/-- C4, as stated, fails: `toPath` is `src/photo.jpg/x`, which does not
exist because `photo.jpg` is a regular file. With a free `fromPath` the
rename is attempted and the reply is 500; with an occupied `fromPath` the
reply is 409. The claim has 404 in both cases and no rename attempt. The
file system is unchanged in both. -/
theorem undoImage_target_below_file :
    fsGet sampleFS (key ["w", "src", "photo.jpg"]) = some (.file [1, 2, 3]) ∧
    fsGet sampleFS (key ["w", "src", "photo.jpg", "x"]) = none ∧
    StatRaw sampleCwd sampleFS "src/photo.jpg/x".toList = .otherErr ∧
    undoPlan sampleCwd sampleFS ⟨"x", "src/x", "src/photo.jpg/x"⟩ = .rename ∧
    undoImage sampleCwd false sampleFS ⟨"x", "src/x", "src/photo.jpg/x"⟩
      = (⟨500, false, "Failed to undo move: "⟩, sampleFS) ∧
    undoImage sampleCwd false sampleFS ⟨"x", "out/frontal/photo.jpg", "src/photo.jpg/x"⟩
      = (⟨409, false, "Original file location already occupied"⟩, sampleFS) := by
  decide

/-- C4, amended: for every `fromPath`, `toPath` and file system state,
`undoImage` replies 404 if `os.Stat` reports that `toPath` does not exist,
and 409 if `toPath` exists and `fromPath` is occupied; whenever it fails
(404, 409, or 500 after a failed rename) the file system is exactly as it
was; and it goes on to the rename only when `os.Stat` does not report
`toPath` as not existing and nothing is at `fromPath`. -/
theorem undoImage_failures_safe (cwd : Key) (renameFails : Bool) (fs : FS) (req : UndoRequest) :
    (StatRaw cwd fs req.ToPath.toList = .notExist →
      undoImage cwd renameFails fs req = (⟨404, false, "Target file not found"⟩, fs)) ∧
    (∀ n m, StatRaw cwd fs req.ToPath.toList = .ok n →
      StatRaw cwd fs req.FromPath.toList = .ok m →
      undoImage cwd renameFails fs req
        = (⟨409, false, "Original file location already occupied"⟩, fs)) ∧
    ((undoImage cwd renameFails fs req).1.Success = false →
      (undoImage cwd renameFails fs req).2 = fs) ∧
    (undoPlan cwd fs req = .rename →
      StatRaw cwd fs req.ToPath.toList ≠ .notExist ∧
      ∀ m, StatRaw cwd fs req.FromPath.toList ≠ .ok m) := by
  refine ⟨?_, ?_, ?_, ?_⟩
  · intro h
    simp only [undoImage, undoPlan, h, if_true]
  · intro n m h1 h2
    simp only [undoImage, undoPlan, h1, h2, reduceCtorEq, if_false]
  · unfold undoImage
    cases undoPlan cwd fs req with
    | reply r => intro _; rfl
    | rename =>
      simp only
      cases RenameRaw cwd renameFails fs req.ToPath.toList req.FromPath.toList with
      | none => intro _; rfl
      | some fs1 => intro h; cases h
  · intro h
    unfold undoPlan at h
    by_cases h1 : StatRaw cwd fs req.ToPath.toList = .notExist
    · rw [if_pos h1] at h; cases h
    · rw [if_neg h1] at h
      refine ⟨h1, fun m hm => ?_⟩
      rw [hm] at h
      cases h

theorem undoImage_failures_safe_witness :
    StatRaw sampleCwd sampleFS "out/side/photo.jpg".toList = .notExist ∧
    undoImage sampleCwd false sampleFS ⟨"photo.jpg", "src/photo.jpg", "out/side/photo.jpg"⟩
      = (⟨404, false, "Target file not found"⟩, sampleFS) :=
  ⟨by decide,
    (undoImage_failures_safe sampleCwd false sampleFS
      ⟨"photo.jpg", "src/photo.jpg", "out/side/photo.jpg"⟩).1 (by decide)⟩

/-- The path strings of an undo request are taken as they are: a trailing
separator after a regular file and a step through a missing directory are
not cleaned away. For `toPath = out/frontal/photo.jpg/` the reply is 500,
for `toPath = nodir/../out/frontal/photo.jpg` it is 404, and the plain
`out/frontal/photo.jpg` is moved. -/
theorem undoImage_paths_as_given :
    StatRaw sampleCwd sampleFS "out/frontal/photo.jpg/".toList = .otherErr ∧
    undoImage sampleCwd false sampleFS ⟨"photo.jpg", "src/back.jpg", "out/frontal/photo.jpg/"⟩
      = (⟨500, false, "Failed to undo move: "⟩, sampleFS) ∧
    StatRaw sampleCwd sampleFS "nodir/../out/frontal/photo.jpg".toList = .notExist ∧
    undoImage sampleCwd false sampleFS
        ⟨"photo.jpg", "src/back.jpg", "nodir/../out/frontal/photo.jpg"⟩
      = (⟨404, false, "Target file not found"⟩, sampleFS) ∧
    (undoImage sampleCwd false sampleFS
        ⟨"photo.jpg", "src/back.jpg", "out/frontal/photo.jpg"⟩).1
      = ⟨200, true, "Move operation undone successfully"⟩ := by
  decide

/-! ## The directory of a suffixed target (C10) -/

/-- C10, at a failing input: the request names `sub/photo.jpg` and the
category already holds `sub/photo.jpg`. `moveImage` ensures
`out/frontal/sub`, then builds the suffixed path from the whole file name,
`out/frontal/sub/sub/photo_1.jpg`, and calls `moveFile` although the
directory `out/frontal/sub/sub` does not exist; the move fails with 500. -/
theorem moveImage_suffixed_path_without_directory :
    (movePlan sampleConfig sampleCwd noFaults nestedFS
      ⟨"sub/photo.jpg", "frontal"⟩).finalTargetPath.map render
      = some "out/frontal/sub/sub/photo_1.jpg" ∧
    (movePlan sampleConfig sampleCwd noFaults nestedFS ⟨"sub/photo.jpg", "frontal"⟩).fsAtMove.map
      (fun fs1 => Stat sampleCwd fs1 (some (Dir
        (movePlan sampleConfig sampleCwd noFaults nestedFS
          ⟨"sub/photo.jpg", "frontal"⟩).finalTargetPath))) = some .notExist ∧
    moveImage sampleConfig sampleCwd noFaults nestedFS ⟨"sub/photo.jpg", "frontal"⟩
      = some (⟨500, false, "Failed to move file: failed to create target file: "⟩, nestedFS) := by
  decide

/-! ## The scenario of the specification -/

/-- The scenario of the specification runs as described: the scan lists
`a.png` only, the move puts it at `./output/frontal/a.png` and replies with
success, and the undo with the recorded paths brings it back. A second
`photo.jpg` becomes `photo_1.jpg`, and a third `photo_2.jpg`. -/
theorem scenario_runs :
    scanImageFiles (.entries [⟨"a.png", false⟩, ⟨"b.txt", false⟩]) = some ["a.png"] ∧
    (moveImage scenarioConfig sampleCwd noFaults scenarioFS ⟨"a.png", "frontal"⟩).map
      (fun out => (out.1, fsGet out.2 (key ["w", "output", "frontal", "a.png"]),
        fsGet out.2 (key ["w", "source_images", "a.png"])))
      = some (⟨200, true, "File moved to 正脸"⟩, some (.file [1]), none) ∧
    (moveImage scenarioConfig sampleCwd noFaults scenarioFS ⟨"a.png", "frontal"⟩).map
      (fun out =>
        let back := undoImage sampleCwd false out.2
          ⟨"a.png", "./source_images/a.png", "./output/frontal/a.png"⟩
        (back.1, fsGet back.2 (key ["w", "source_images", "a.png"]),
          fsGet back.2 (key ["w", "output", "frontal", "a.png"])))
      = some (⟨200, true, "Move operation undone successfully"⟩, some (.file [1]), none) ∧
    (movePlan sampleConfig sampleCwd noFaults sampleFS
      ⟨"photo.jpg", "frontal"⟩).finalTargetPath.map render = some "out/frontal/photo_1.jpg" ∧
    (movePlan sampleConfig sampleCwd noFaults
      (fsPut sampleFS (key ["w", "out", "frontal", "photo_1.jpg"]) (.file [8]))
      ⟨"photo.jpg", "frontal"⟩).finalTargetPath.map render = some "out/frontal/photo_2.jpg" := by
  decide

end KigImgSift
